import Mathlib

/-!
# value_ptr: a shallow embedding of `value_ptr.hpp`

The header defines one class template, `value_ptr<T>`, holding a single data
member `T *p`, and two free functions (`swap`, `make_value`).

The embedding instantiates the pointee type with the recursive node type

    struct T { V value; value_ptr<T> next; };

whose special member functions are the implicit (memberwise) ones.  A `T` whose
`next` is always empty behaves like a plain value of type `V`; a `T` whose `next`
is non-empty gives the recursive structures the header advertises.

Memory is explicit:

* the free store is a list of cells, an address is an index into it (a `Nat`)
  and is never reused, so two allocations are distinct exactly when their
  addresses differ; a `T *` is an `Option Nat`, `none` being `nullptr`;
* a `value_ptr` object lives either in automatic storage (`Loc.stack i`) or is
  the `next` member of the node stored at some address (`Loc.member a`);
* `operator new` succeeds `budget` more times and then throws.

Every operation returns a `Res`: a normal result with the memory it leaves, an
exception in flight with the memory it leaves, undefined behaviour, or
exhaustion of the recursion fuel of the model.
-/

namespace value_ptr_ns

/-- The pointee `T`: a payload and a member `value_ptr<T> next`, stored as that member's `p`. -/
structure Node (V : Type) where
  value : V
  next : Option Nat
deriving DecidableEq, Repr

/-- One allocation of the free store: storage obtained from `operator new` in which no object
has been constructed yet, a fully constructed `T`, or storage given back by `delete`. -/
inductive Cell (V : Type) where
  | raw : Cell V
  | live : Node V → Cell V
  | dead : Cell V
deriving DecidableEq, Repr

/-- Where a `value_ptr<T>` object is: an automatic variable, or the member `next` of the node
at an address. -/
inductive Loc where
  | stack : Nat → Loc
  | member : Nat → Loc
deriving DecidableEq, Repr

/-- The memory: the free store, the `p` of every automatic `value_ptr`, and how many more
times `operator new` succeeds. -/
structure Mem (V : Type) where
  heap : List (Cell V)
  stack : List (Option Nat)
  budget : Nat
deriving DecidableEq, Repr

/-- Outcome of running an operation. -/
inductive Res (V : Type) (α : Type) where
  | ok : α → Mem V → Res V α
  | thrown : Mem V → Res V α
  | ub : Res V α
  | outOfFuel : Res V α
deriving DecidableEq, Repr

/-- The `p` member of the `next` box of the node at `a`, when a constructed node is there. -/
def nextOf {V : Type} (h : List (Cell V)) (a : Nat) : Option (Option Nat) :=
  match h[a]? with
  | some (Cell.live n) => some n.next
  | _ => none

/-- The payload of the node at `a`, when a constructed node is there. -/
def valueOf {V : Type} (h : List (Cell V)) (a : Nat) : Option V :=
  match h[a]? with
  | some (Cell.live n) => some n.value
  | _ => none

/-- Reading the member `p` of the box at `l`; `none` when no such box is within its lifetime. -/
def readBox {V : Type} (m : Mem V) : Loc → Option (Option Nat)
  | Loc.stack i => m.stack[i]?
  | Loc.member a => nextOf m.heap a

/-- Storing into the member `p` of the box at `l`; `none` when no such box is within its
lifetime. -/
def writeBox {V : Type} (m : Mem V) : Loc → Option Nat → Option (Mem V)
  | Loc.stack i, p =>
    if i < m.stack.length then some { m with stack := m.stack.set i p } else none
  | Loc.member a, p =>
    match m.heap[a]? with
    | some (Cell.live n) => some { m with heap := m.heap.set a (Cell.live { n with next := p }) }
    | _ => none

/-- The expression `delete p`.  For a null `p` nothing happens.  Otherwise `p->~T()` runs,
which destroys the member `next` (its destructor `~value_ptr` is again `delete p`), and then
the storage is given back.  Deleting what is not a constructed node is undefined. -/
def delete_ptr {V : Type} : Nat → Mem V → Option Nat → Res V Unit
  | _, m, none => Res.ok () m
  | 0, _, some _ => Res.outOfFuel
  | f + 1, m, some a =>
    match m.heap[a]? with
    | some (Cell.live n) =>
      match delete_ptr f m n.next with
      | Res.ok _ m1 =>
        match m1.heap[a]? with
        | some (Cell.live _) => Res.ok () { m1 with heap := m1.heap.set a Cell.dead }
        | _ => Res.ub
      | r => r
    | _ => Res.ub

/-- The expression `new T (*q)`: `operator new`, then the memberwise copy constructor of `T`
(`value` first, then `next`, whose copy constructor is
`p (a.p == nullptr ? nullptr : new T (*a.p))`).  When constructing the member throws, the
storage is given back and the exception goes on. -/
def new_copy {V : Type} : Nat → Mem V → Nat → Res V Nat
  | 0, _, _ => Res.outOfFuel
  | f + 1, m, q =>
    if m.budget = 0 then Res.thrown m
    else
      let k := m.heap.length
      let m1 : Mem V := { m with heap := m.heap ++ [Cell.raw], budget := m.budget - 1 }
      match m1.heap[q]? with
      | some (Cell.live n) =>
        match n.next with
        | none => Res.ok k { m1 with heap := m1.heap.set k (Cell.live ⟨n.value, none⟩) }
        | some q1 =>
          match new_copy f m1 q1 with
          | Res.ok k1 m2 =>
            Res.ok k { m2 with heap := m2.heap.set k (Cell.live ⟨n.value, some k1⟩) }
          | Res.thrown m2 => Res.thrown { m2 with heap := m2.heap.set k Cell.dead }
          | Res.ub => Res.ub
          | Res.outOfFuel => Res.outOfFuel
      | _ => Res.ub

namespace value_ptr

/-- The member initializer of `value_ptr (const value_ptr &a)`:
`p (a.p == nullptr ? nullptr : new T (*a.p))`. -/
def copy_init {V : Type} (fuel : Nat) (m : Mem V) (a : Loc) : Res V (Option Nat) :=
  match readBox m a with
  | none => Res.ub
  | some none => Res.ok none m
  | some (some q) =>
    match new_copy fuel m q with
    | Res.ok k m1 => Res.ok (some k) m1
    | Res.thrown m1 => Res.thrown m1
    | Res.ub => Res.ub
    | Res.outOfFuel => Res.outOfFuel

/-- `value_ptr (const value_ptr &a)` constructing a new automatic variable; the result is
where the new box is. -/
def ctor_copy {V : Type} (fuel : Nat) (m : Mem V) (a : Loc) : Res V Loc :=
  match copy_init fuel m a with
  | Res.ok p m1 => Res.ok (Loc.stack m1.stack.length) { m1 with stack := m1.stack ++ [p] }
  | Res.thrown m1 => Res.thrown m1
  | Res.ub => Res.ub
  | Res.outOfFuel => Res.outOfFuel

/-- `value_ptr (value_ptr &&a) noexcept : p (a.p) { a.p = nullptr; }` constructing a new
automatic variable. -/
def ctor_move {V : Type} (m : Mem V) (a : Loc) : Res V Loc :=
  match readBox m a with
  | none => Res.ub
  | some x =>
    match writeBox m a none with
    | none => Res.ub
    | some m1 => Res.ok (Loc.stack m1.stack.length) { m1 with stack := m1.stack ++ [x] }

/-- `operator= (std::nullptr_t)`: `delete p; p = nullptr;`.  The body has no `return`
statement, so the value of the result is `none`: no reference is returned. -/
def assign_nullptr {V : Type} (fuel : Nat) (m : Mem V) (self : Loc) : Res V (Option Loc) :=
  match readBox m self with
  | none => Res.ub
  | some p =>
    match delete_ptr fuel m p with
    | Res.ok _ m1 =>
      match writeBox m1 self none with
      | none => Res.ub
      | some m2 => Res.ok none m2
    | Res.thrown m1 => Res.thrown m1
    | Res.ub => Res.ub
    | Res.outOfFuel => Res.outOfFuel

/-- `operator= (value_ptr &&a)`: `delete p; p = a.p; a.p = nullptr;`.  The body has no
`return` statement, so the value of the result is `none`. -/
def assign_move {V : Type} (fuel : Nat) (m : Mem V) (self a : Loc) : Res V (Option Loc) :=
  match readBox m self with
  | none => Res.ub
  | some p =>
    match delete_ptr fuel m p with
    | Res.ok _ m1 =>
      match readBox m1 a with
      | none => Res.ub
      | some x =>
        match writeBox m1 self x with
        | none => Res.ub
        | some m2 =>
          match writeBox m2 a none with
          | none => Res.ub
          | some m3 => Res.ok none m3
    | Res.thrown m1 => Res.thrown m1
    | Res.ub => Res.ub
    | Res.outOfFuel => Res.outOfFuel

/-- `operator= (const value_ptr &a)`.  The innermost branch `*p = *a.p` is the memberwise
copy assignment of `T`: `value = o.value; next = o.next;`, the second being this operator
again on the two member boxes.  The body ends in `return *this`. -/
def assign_copy {V : Type} : Nat → Mem V → Loc → Loc → Res V (Option Loc)
  | 0, _, _, _ => Res.outOfFuel
  | f + 1, m, self, a =>
    if self = a then Res.ok (some self) m
    else
      match readBox m a with
      | none => Res.ub
      | some none =>
        match readBox m self with
        | none => Res.ub
        | some p =>
          match delete_ptr f m p with
          | Res.ok _ m1 =>
            match writeBox m1 self none with
            | none => Res.ub
            | some m2 => Res.ok (some self) m2
          | Res.thrown m1 => Res.thrown m1
          | Res.ub => Res.ub
          | Res.outOfFuel => Res.outOfFuel
      | some (some q) =>
        match readBox m self with
        | none => Res.ub
        | some none =>
          match new_copy f m q with
          | Res.ok k m1 =>
            match writeBox m1 self (some k) with
            | none => Res.ub
            | some m2 => Res.ok (some self) m2
          | Res.thrown m1 => Res.thrown m1
          | Res.ub => Res.ub
          | Res.outOfFuel => Res.outOfFuel
        | some (some d) =>
          match m.heap[q]? with
          | some (Cell.live nq) =>
            match m.heap[d]? with
            | some (Cell.live nd) =>
              let m1 : Mem V := { m with heap := m.heap.set d (Cell.live ⟨nq.value, nd.next⟩) }
              match assign_copy f m1 (Loc.member d) (Loc.member q) with
              | Res.ok _ m2 => Res.ok (some self) m2
              | Res.thrown m2 => Res.thrown m2
              | Res.ub => Res.ub
              | Res.outOfFuel => Res.outOfFuel
            | _ => Res.ub
          | _ => Res.ub

end value_ptr

open value_ptr

/-- The statement `*p = *a.p` for `p = d` and `a.p = q`: the implicitly defined copy
assignment operator of `T`, `value = o.value; next = o.next;`, the second assignment being
`value_ptr::operator= (const value_ptr &)` on the two member boxes. -/
def T_copy_assign {V : Type} (fuel : Nat) (m : Mem V) (d q : Nat) : Res V Unit :=
  match m.heap[q]? with
  | some (Cell.live nq) =>
    match m.heap[d]? with
    | some (Cell.live nd) =>
      match assign_copy fuel { m with heap := m.heap.set d (Cell.live ⟨nq.value, nd.next⟩) }
          (Loc.member d) (Loc.member q) with
      | Res.ok _ m2 => Res.ok () m2
      | Res.thrown m2 => Res.thrown m2
      | Res.ub => Res.ub
      | Res.outOfFuel => Res.outOfFuel
    | _ => Res.ub
  | _ => Res.ub

/-- A list of nodes hanging from `p`: `as` are the addresses met by following `next` from
`p` down to the null pointer, every one of them a constructed node. -/
def Chain {V : Type} (h : List (Cell V)) : Option Nat → List Nat → Prop
  | p, [] => p = none
  | p, a :: as => p = some a ∧ ∃ nx, nextOf h a = some nx ∧ Chain h nx as

/-- Whether `as` hangs from `p` can be computed by walking the free store. -/
instance Chain.decidable {V : Type} (h : List (Cell V)) :
    ∀ (p : Option Nat) (as : List Nat), Decidable (Chain h p as)
  | p, [] => inferInstanceAs (Decidable (p = none))
  | p, a :: as =>
    if hp : p = some a then
      match hn : nextOf h a with
      | none => isFalse (fun hc => by
          obtain ⟨_, nx, hnx, _⟩ := hc
          rw [hn] at hnx
          exact Option.noConfusion hnx)
      | some nx =>
        match Chain.decidable h nx as with
        | isTrue hc => isTrue ⟨hp, nx, hn, hc⟩
        | isFalse hc => isFalse (fun hc1 => by
            obtain ⟨_, ny, hny, hrest⟩ := hc1
            rw [hn] at hny
            cases hny
            exact hc hrest)
    else isFalse (fun hc => hp hc.1)

/-- The payloads stored at the given addresses. -/
def values {V : Type} (h : List (Cell V)) (as : List Nat) : List (Option V) :=
  as.map (valueOf h)

/-- The free store after `delete` has run over every address of `as`. -/
def release {V : Type} (h : List (Cell V)) : List Nat → List (Cell V)
  | [] => h
  | a :: as => (release h as).set a Cell.dead

/-- The reference an assignment operator hands back to its caller: the operand of the
`return` statement that ended the call, `none` when the call did not end in one. -/
def Res.returned {V : Type} : Res V (Option Loc) → Option Loc
  | Res.ok r _ => r
  | _ => none

/-- A memory with two automatic boxes: box 0 owns the list 1, 2 (nodes at addresses 0 and 1),
box 1 is empty. -/
def demo_list : Mem Int :=
  ⟨[Cell.live ⟨1, some 1⟩, Cell.live ⟨2, none⟩], [some 0, none], 5⟩

/-- A memory with two automatic boxes owning one node each: box 0 owns the value 7, box 1
the value 9. -/
def demo_pair : Mem Int :=
  ⟨[Cell.live ⟨7, none⟩, Cell.live ⟨9, none⟩], [some 0, some 1], 5⟩

namespace value_ptr

/-- `value_ptr () noexcept : p (nullptr)` constructing a new automatic variable. -/
def ctor_default {V : Type} (m : Mem V) : Res V Loc :=
  Res.ok (Loc.stack m.stack.length) { m with stack := m.stack ++ [none] }

/-- `value_ptr (std::nullptr_t) noexcept : p (nullptr)` constructing a new automatic
variable. -/
def ctor_nullptr {V : Type} (m : Mem V) : Res V Loc :=
  Res.ok (Loc.stack m.stack.length) { m with stack := m.stack ++ [none] }

/-- `explicit value_ptr (T *a) noexcept : p (a)` constructing a new automatic variable. -/
def ctor_raw {V : Type} (m : Mem V) (a : Option Nat) : Res V Loc :=
  Res.ok (Loc.stack m.stack.length) { m with stack := m.stack ++ [a] }

/-- The body of `~value_ptr () noexcept`: `delete p;`. -/
def dtor {V : Type} (fuel : Nat) (m : Mem V) (self : Loc) : Res V Unit :=
  match readBox m self with
  | none => Res.ub
  | some p => delete_ptr fuel m p

/-- The member `swap (value_ptr &a) noexcept`: `std::swap (p, a.p)`, that is
`tmp = p; p = a.p; a.p = tmp;`. -/
def swap {V : Type} (m : Mem V) (self a : Loc) : Res V Unit :=
  match readBox m self with
  | none => Res.ub
  | some tmp =>
    match readBox m a with
    | none => Res.ub
    | some y =>
      match writeBox m self y with
      | none => Res.ub
      | some m1 =>
        match writeBox m1 a tmp with
        | none => Res.ub
        | some m2 => Res.ok () m2

/-- `T &operator* () & noexcept`: `return *p;`. -/
def deref_lvalue {V : Type} (m : Mem V) (self : Loc) : Res V Nat :=
  match readBox m self with
  | some (some k) => Res.ok k m
  | _ => Res.ub

end value_ptr

/-- The free function `swap (value_ptr<T> &a, value_ptr<T> &b) noexcept`: `a.swap (b);`. -/
def swap {V : Type} (m : Mem V) (a b : Loc) : Res V Unit :=
  value_ptr.swap m a b

/-- The expression `new T (args...)`: `operator new`, then the constructor of `T` selected by
the arguments.  `T` is the template parameter, so that constructor is a parameter here:
`construct` runs in the memory that already holds the fresh storage and yields the members of
the node it builds, or throws.  When it throws, the storage is given back and the exception
goes on. -/
def new_T {V : Type} (construct : Mem V → Res V (Node V)) (m : Mem V) : Res V Nat :=
  if m.budget = 0 then Res.thrown m
  else
    let k := m.heap.length
    match construct { m with heap := m.heap ++ [Cell.raw], budget := m.budget - 1 } with
    | Res.ok n m2 => Res.ok k { m2 with heap := m2.heap.set k (Cell.live n) }
    | Res.thrown m2 => Res.thrown { m2 with heap := m2.heap.set k Cell.dead }
    | Res.ub => Res.ub
    | Res.outOfFuel => Res.outOfFuel

/-- `make_value<T> (a...)`: `return value_ptr<T> (new T (std::forward<U> (a)...));`, the
returned box being a new automatic variable of the caller. -/
def make_value {V : Type} (construct : Mem V → Res V (Node V)) (m : Mem V) : Res V Loc :=
  match new_T construct m with
  | Res.ok k m1 => value_ptr.ctor_raw m1 (some k)
  | Res.thrown m1 => Res.thrown m1
  | Res.ub => Res.ub
  | Res.outOfFuel => Res.outOfFuel

/-- A constructor of `T` that stores the payload `v` and leaves `next` empty; it allocates
nothing and cannot throw. -/
def T_of_value {V : Type} (v : V) (m : Mem V) : Res V (Node V) :=
  Res.ok ⟨v, none⟩ m

/-- The list 1, 2 of `demo_list` in a memory where `operator new` succeeds only once more. -/
def demo_short : Mem Int :=
  ⟨[Cell.live ⟨1, some 1⟩, Cell.live ⟨2, none⟩], [some 0, none], 1⟩

/-- What `std::is_copy_constructible<value_ptr<T>>` answers, as a function of what
`std::is_copy_constructible<T>` answers.  The trait looks at declarations only.  The class
declares `value_ptr (const value_ptr &a)` for every `T`, with no constraint on `T`; the one
place that needs `T (const T &)` is the initializer `new T (*a.p)` inside that constructor,
which the trait does not instantiate; and the header specialises no trait.  So the answer is
the same for every `T`. -/
def is_copy_constructible_value_ptr : Bool → Bool :=
  fun _ => true

/-! ### Programs over automatic boxes -/

/-- Forgetting the value an operation returns. -/
def Res.forget {V α : Type} : Res V α → Res V Unit
  | Res.ok _ m => Res.ok () m
  | Res.thrown m => Res.thrown m
  | Res.ub => Res.ub
  | Res.outOfFuel => Res.outOfFuel

/-- Leaving the scope of the most recently declared automatic box: its destructor runs and
the box is gone. -/
def scope_exit {V : Type} (fuel : Nat) (m : Mem V) : Res V Unit :=
  match value_ptr.dtor fuel m (Loc.stack (m.stack.length - 1)) with
  | Res.ok _ m1 => Res.ok () { m1 with stack := m1.stack.dropLast }
  | Res.thrown m1 => Res.thrown m1
  | Res.ub => Res.ub
  | Res.outOfFuel => Res.outOfFuel

/-- One statement of a program whose boxes are all automatic variables, named by the order of
their declaration.  The four constructing statements declare a new box. -/
inductive Op (V : Type) where
  /-- Statement `value_ptr<T> b;` -/
  | ctor_default : Op V
  /-- Statement `value_ptr<T> b (nullptr);` -/
  | ctor_nullptr : Op V
  /-- Statement `value_ptr<T> b (new T (v));`: the explicit constructor, given a pointer that a `new`
  expression has just produced and nothing else owns. -/
  | ctor_raw_new : V → Op V
  /-- Statement `value_ptr<T> b = make_value<T> (v);` -/
  | make_value : V → Op V
  /-- Statement `value_ptr<T> b (bj);` -/
  | ctor_copy : Nat → Op V
  /-- Statement `value_ptr<T> b (std::move (bj));` -/
  | ctor_move : Nat → Op V
  /-- Statement `bi = nullptr;` -/
  | assign_nullptr : Nat → Op V
  /-- Statement `bi = bj;` -/
  | assign_copy : Nat → Nat → Op V
  /-- Statement `bi = std::move (bj);` -/
  | assign_move : Nat → Nat → Op V
  /-- Statement `swap (bi, bj);` -/
  | swap : Nat → Nat → Op V
  /-- The end of the scope of the last declared box. -/
  | scope_exit : Op V
deriving DecidableEq, Repr

/-- Whether every box the statement names has been declared, `n` boxes being in scope. -/
def Op.in_scope {V : Type} (n : Nat) : Op V → Prop
  | Op.ctor_copy j => j < n
  | Op.ctor_move j => j < n
  | Op.assign_nullptr i => i < n
  | Op.assign_copy i j => i < n ∧ j < n
  | Op.assign_move i j => i < n ∧ j < n
  | Op.swap i j => i < n ∧ j < n
  | Op.scope_exit => 0 < n
  | _ => True

instance Op.in_scope_decidable {V : Type} (n : Nat) (op : Op V) : Decidable (op.in_scope n) := by
  cases op <;> unfold Op.in_scope <;> infer_instance

/-- Running one statement.  The recursion fuel is taken large enough for any two chains of
the free store. -/
def step {V : Type} (m : Mem V) : Op V → Res V Unit
  | Op.ctor_default => (value_ptr.ctor_default m).forget
  | Op.ctor_nullptr => (value_ptr.ctor_nullptr m).forget
  | Op.ctor_raw_new v =>
    match new_T (T_of_value v) m with
    | Res.ok k m1 => (value_ptr.ctor_raw m1 (some k)).forget
    | Res.thrown m1 => Res.thrown m1
    | Res.ub => Res.ub
    | Res.outOfFuel => Res.outOfFuel
  | Op.make_value v => (make_value (T_of_value v) m).forget
  | Op.ctor_copy j => (ctor_copy (2 * m.heap.length + 2) m (Loc.stack j)).forget
  | Op.ctor_move j => (ctor_move m (Loc.stack j)).forget
  | Op.assign_nullptr i => (assign_nullptr (2 * m.heap.length + 2) m (Loc.stack i)).forget
  | Op.assign_copy i j =>
    (assign_copy (2 * m.heap.length + 2) m (Loc.stack i) (Loc.stack j)).forget
  | Op.assign_move i j =>
    (assign_move (2 * m.heap.length + 2) m (Loc.stack i) (Loc.stack j)).forget
  | Op.swap i j => value_ptr_ns.swap m (Loc.stack i) (Loc.stack j)
  | Op.scope_exit => scope_exit (2 * m.heap.length + 2) m

/-- The automatic boxes own the constructed nodes as a forest: from every automatic box hangs
a chain of constructed nodes, the chains of two boxes share no node, every constructed node
is on one of the chains, and no storage is left unconstructed. -/
structure Forest {V : Type} (m : Mem V) : Prop where
  chain : ∀ (i : Nat) (p : Option Nat), m.stack[i]? = some p → ∃ as : List Nat, Chain m.heap p as
  disjoint : ∀ (i j : Nat) (p q : Option Nat) (as bs : List Nat), i ≠ j →
    m.stack[i]? = some p → m.stack[j]? = some q → Chain m.heap p as → Chain m.heap q bs →
    ∀ c ∈ as, c ∉ bs
  covered : ∀ (c : Nat) (n : Node V), m.heap[c]? = some (Cell.live n) →
    ∃ (i : Nat) (p : Option Nat) (as : List Nat),
      m.stack[i]? = some p ∧ Chain m.heap p as ∧ c ∈ as
  no_raw : ∀ c : Nat, m.heap[c]? ≠ some Cell.raw

/-- A memory with two automatic boxes: box 0 owns the list 1, 2 and box 1 owns the single
value 7. -/
def demo_forest : Mem Int :=
  ⟨[Cell.live ⟨1, some 1⟩, Cell.live ⟨2, none⟩, Cell.live ⟨7, none⟩], [some 0, some 2], 5⟩

/-! ## Reading the free store after a store or an allocation -/

theorem nextOf_lt {V : Type} {h : List (Cell V)} {a : Nat} {x : Option Nat}
    (hx : nextOf h a = some x) : a < h.length := by
  unfold nextOf at hx
  by_contra hlt
  rw [List.getElem?_eq_none (Nat.le_of_not_lt hlt)] at hx
  simp at hx

theorem nextOf_live {V : Type} {h : List (Cell V)} {a : Nat} {x : Option Nat}
    (hx : nextOf h a = some x) : ∃ n : Node V, h[a]? = some (Cell.live n) ∧ n.next = x := by
  unfold nextOf at hx
  split at hx
  · rename_i n hn
    exact ⟨n, hn, by simpa using hx⟩
  · simp at hx

theorem nextOf_of_live {V : Type} {h : List (Cell V)} {a : Nat} {n : Node V}
    (hn : h[a]? = some (Cell.live n)) : nextOf h a = some n.next := by
  simp [nextOf, hn]

theorem valueOf_of_live {V : Type} {h : List (Cell V)} {a : Nat} {n : Node V}
    (hn : h[a]? = some (Cell.live n)) : valueOf h a = some n.value := by
  simp [valueOf, hn]

theorem nextOf_congr {V : Type} {h h1 : List (Cell V)} {a : Nat}
    (he : h1[a]? = h[a]?) : nextOf h1 a = nextOf h a := by
  simp [nextOf, he]

theorem valueOf_congr {V : Type} {h h1 : List (Cell V)} {a : Nat}
    (he : h1[a]? = h[a]?) : valueOf h1 a = valueOf h a := by
  simp [valueOf, he]

theorem nextOf_set_ne {V : Type} (h : List (Cell V)) {a b : Nat} (c : Cell V)
    (hab : b ≠ a) : nextOf (h.set b c) a = nextOf h a :=
  nextOf_congr (List.getElem?_set_ne hab)

theorem valueOf_set_ne {V : Type} (h : List (Cell V)) {a b : Nat} (c : Cell V)
    (hab : b ≠ a) : valueOf (h.set b c) a = valueOf h a :=
  valueOf_congr (List.getElem?_set_ne hab)

theorem nextOf_append {V : Type} (h e : List (Cell V)) {a : Nat}
    (ha : a < h.length) : nextOf (h ++ e) a = nextOf h a :=
  nextOf_congr (List.getElem?_append_left ha)

theorem valueOf_append {V : Type} (h e : List (Cell V)) {a : Nat}
    (ha : a < h.length) : valueOf (h ++ e) a = valueOf h a :=
  valueOf_congr (List.getElem?_append_left ha)

/-! ## Chains -/

theorem Chain.congr {V : Type} {h h1 : List (Cell V)} :
    ∀ {as : List Nat} {p : Option Nat}, Chain h p as →
      (∀ a ∈ as, nextOf h1 a = nextOf h a) → Chain h1 p as
  | [], _, hc, _ => hc
  | a :: as, _, ⟨hp, nx, hnx, hrest⟩, hsame =>
    ⟨hp, nx, by rw [hsame a (List.mem_cons_self a as)]; exact hnx,
      Chain.congr hrest (fun b hb => hsame b (List.mem_cons_of_mem a hb))⟩

theorem Chain.lt {V : Type} {h : List (Cell V)} :
    ∀ {as : List Nat} {p : Option Nat}, Chain h p as → ∀ a ∈ as, a < h.length
  | [], _, _, _, ha => by simp at ha
  | b :: as, _, ⟨_, nx, hnx, hrest⟩, a, ha => by
    rcases List.mem_cons.mp ha with rfl | hmem
    · exact nextOf_lt hnx
    · exact Chain.lt hrest a hmem

theorem Chain.det {V : Type} {h : List (Cell V)} :
    ∀ {as bs : List Nat} {p : Option Nat}, Chain h p as → Chain h p bs → as = bs
  | [], [], _, _, _ => rfl
  | [], _ :: _, _, ha, ⟨hb, _⟩ => by
    have hn : _ = none := ha
    rw [hn] at hb
    simp at hb
  | _ :: _, [], _, ⟨ha, _⟩, hb => by
    have hn : _ = none := hb
    rw [hn] at ha
    simp at ha
  | a :: as, b :: bs, _, ⟨ha, nx, hnx, hrest⟩, ⟨hb, ny, hny, hrest1⟩ => by
    have hab : a = b := by
      rw [ha] at hb
      exact Option.some.inj hb
    subst hab
    rw [hnx] at hny
    have hxy : nx = ny := Option.some.inj hny
    subst hxy
    rw [Chain.det hrest hrest1]

/-- From a member of a chain the rest of the chain hangs. -/
theorem Chain.tail_of_mem {V : Type} {h : List (Cell V)} :
    ∀ {as : List Nat} {p : Option Nat}, Chain h p as → ∀ a ∈ as,
      ∃ bs : List Nat, Chain h (some a) (a :: bs) ∧ bs.length < as.length
  | [], _, _, _, ha => by simp at ha
  | b :: as, _, ⟨hp, nx, hnx, hrest⟩, a, ha => by
    rcases List.mem_cons.mp ha with rfl | hmem
    · exact ⟨as, ⟨rfl, nx, hnx, hrest⟩, by simp⟩
    · obtain ⟨bs, hbs, hlen⟩ := Chain.tail_of_mem hrest a hmem
      exact ⟨bs, hbs, by simp; omega⟩

/-- A node is not met again further down its own chain. -/
theorem Chain.not_mem_tail {V : Type} {h : List (Cell V)} {a : Nat} {as : List Nat}
    {p : Option Nat} (hc : Chain h p (a :: as)) : a ∉ as := by
  intro hmem
  obtain ⟨_, nx, hnx, hrest⟩ := hc
  obtain ⟨bs, hbs, hlen⟩ := Chain.tail_of_mem hrest a hmem
  have heq : a :: as = a :: bs := Chain.det (⟨rfl, nx, hnx, hrest⟩ : Chain h (some a) (a :: as)) hbs
  have : as = bs := List.tail_eq_of_cons_eq heq
  subst this
  exact Nat.lt_irrefl _ hlen

/-- The node that holds a box is not part of what hangs from that box. -/
theorem Chain.holder_not_mem {V : Type} {h : List (Cell V)} {a : Nat} {as : List Nat}
    {p : Option Nat} (hp : nextOf h a = some p) (hc : Chain h p as) : a ∉ as :=
  Chain.not_mem_tail (⟨rfl, p, hp, hc⟩ : Chain h (some a) (a :: as))

/-! ## Releasing a chain -/

theorem length_release {V : Type} (h : List (Cell V)) :
    ∀ as : List Nat, (release h as).length = h.length
  | [] => rfl
  | a :: as => by simp [release, length_release h as]

theorem getElem?_release_of_not_mem {V : Type} (h : List (Cell V)) :
    ∀ (as : List Nat) (x : Nat), x ∉ as → (release h as)[x]? = h[x]?
  | [], _, _ => rfl
  | a :: as, x, hx => by
    have hne : a ≠ x := fun e => hx (e ▸ List.mem_cons_self a as)
    have hx1 : x ∉ as := fun hm => hx (List.mem_cons_of_mem a hm)
    simp only [release]
    rw [List.getElem?_set_ne hne, getElem?_release_of_not_mem h as x hx1]

theorem getElem?_release_of_mem {V : Type} (h : List (Cell V)) :
    ∀ (as : List Nat) (x : Nat), x ∈ as → x < h.length → (release h as)[x]? = some Cell.dead
  | [], _, hx, _ => by simp at hx
  | a :: as, x, hx, hlt => by
    simp only [release]
    by_cases hax : a = x
    · subst hax
      exact List.getElem?_set_self (by rw [length_release]; exact hlt)
    · have hx1 : x ∈ as := by
        rcases List.mem_cons.mp hx with e | hm
        · exact absurd e.symm hax
        · exact hm
      rw [List.getElem?_set_ne hax, getElem?_release_of_mem h as x hx1 hlt]

/-- Running `delete p` over a chain succeeds, given fuel for its length, and leaves exactly
the nodes of the chain released. -/
theorem delete_ptr_chain {V : Type} (m : Mem V) :
    ∀ (as : List Nat) (p : Option Nat) (fuel : Nat), Chain m.heap p as → as.length ≤ fuel →
      delete_ptr fuel m p = Res.ok () { m with heap := release m.heap as }
  | [], p, fuel, hc, _ => by
    have hp : p = none := hc
    subst hp
    cases fuel <;> rfl
  | a :: as, p, 0, _, hf => by simp at hf
  | a :: as, p, f + 1, hc, hf => by
    have hnot : a ∉ as := Chain.not_mem_tail hc
    obtain ⟨hp, nx, hnx, hrest⟩ := hc
    subst hp
    obtain ⟨n, hn, hnn⟩ := nextOf_live hnx
    subst hnn
    have ih := delete_ptr_chain m as n.next f hrest (by simpa using hf)
    have hstill : (release m.heap as)[a]? = some (Cell.live n) := by
      rw [getElem?_release_of_not_mem m.heap as a hnot]; exact hn
    simp only [delete_ptr, hn, ih, hstill, release]

/-! ## Reading and storing boxes -/

theorem writeBox_of_readBox {V : Type} {m : Mem V} {l : Loc} {y : Option Nat}
    (hr : readBox m l = some y) (x : Option Nat) : ∃ m1 : Mem V, writeBox m l x = some m1 := by
  cases l with
  | stack i =>
    have hlt : i < m.stack.length := by
      simp only [readBox] at hr
      by_contra hlt
      rw [List.getElem?_eq_none (Nat.le_of_not_lt hlt)] at hr
      simp at hr
    exact ⟨{ m with stack := m.stack.set i x }, by simp [writeBox, hlt]⟩
  | member a =>
    obtain ⟨n, hn, _⟩ := nextOf_live (by simpa [readBox] using hr)
    exact ⟨{ m with heap := m.heap.set a (Cell.live { n with next := x }) },
      by simp [writeBox, hn]⟩

theorem readBox_writeBox_self {V : Type} {m m1 : Mem V} {l : Loc} {x : Option Nat}
    (hw : writeBox m l x = some m1) : readBox m1 l = some x := by
  cases l with
  | stack i =>
    simp only [writeBox] at hw
    split at hw
    · rename_i hlt
      have := Option.some.inj hw
      subst this
      simp [readBox, hlt]
    · simp at hw
  | member a =>
    simp only [writeBox] at hw
    split at hw
    · rename_i n hn
      have := Option.some.inj hw
      subst this
      have hlt : a < m.heap.length := by
        by_contra hlt
        rw [List.getElem?_eq_none (Nat.le_of_not_lt hlt)] at hn
        simp at hn
      simp [readBox, nextOf, hlt]
    · simp at hw

theorem heap_writeBox_of_ne {V : Type} {m m1 : Mem V} {l : Loc} {x : Option Nat}
    (hw : writeBox m l x = some m1) (a : Nat) (hne : Loc.member a ≠ l) :
    m1.heap[a]? = m.heap[a]? := by
  cases l with
  | stack i =>
    simp only [writeBox] at hw
    split at hw
    · have := Option.some.inj hw
      subst this
      rfl
    · simp at hw
  | member b =>
    have hba : b ≠ a := fun e => hne (by rw [e])
    simp only [writeBox] at hw
    split at hw
    · have := Option.some.inj hw
      subst this
      exact List.getElem?_set_ne hba
    · simp at hw

theorem stack_writeBox_of_ne {V : Type} {m m1 : Mem V} {l : Loc} {x : Option Nat}
    (hw : writeBox m l x = some m1) (i : Nat) (hne : Loc.stack i ≠ l) :
    m1.stack[i]? = m.stack[i]? := by
  cases l with
  | stack j =>
    have hji : j ≠ i := fun e => hne (by rw [e])
    simp only [writeBox] at hw
    split at hw
    · have := Option.some.inj hw
      subst this
      exact List.getElem?_set_ne hji
    · simp at hw
  | member b =>
    simp only [writeBox] at hw
    split at hw
    · have := Option.some.inj hw
      subst this
      rfl
    · simp at hw

theorem readBox_writeBox_of_ne {V : Type} {m m1 : Mem V} {l : Loc} {x : Option Nat}
    (hw : writeBox m l x = some m1) (l1 : Loc) (hne : l1 ≠ l) : readBox m1 l1 = readBox m l1 := by
  cases l1 with
  | stack i => exact stack_writeBox_of_ne hw i hne
  | member a => exact nextOf_congr (heap_writeBox_of_ne hw a hne)

theorem length_writeBox {V : Type} {m m1 : Mem V} {l : Loc} {x : Option Nat}
    (hw : writeBox m l x = some m1) : m1.heap.length = m.heap.length := by
  cases l with
  | stack i =>
    simp only [writeBox] at hw
    split at hw
    · have := Option.some.inj hw
      subst this
      rfl
    · simp at hw
  | member b =>
    simp only [writeBox] at hw
    split at hw
    · have := Option.some.inj hw
      subst this
      simp
    · simp at hw

theorem budget_writeBox {V : Type} {m m1 : Mem V} {l : Loc} {x : Option Nat}
    (hw : writeBox m l x = some m1) : m1.budget = m.budget := by
  cases l with
  | stack i =>
    simp only [writeBox] at hw
    split at hw
    · have := Option.some.inj hw
      subst this
      rfl
    · simp at hw
  | member b =>
    simp only [writeBox] at hw
    split at hw
    · have := Option.some.inj hw
      subst this
      rfl
    · simp at hw

theorem valueOf_writeBox {V : Type} {m m1 : Mem V} {l : Loc} {x : Option Nat}
    (hw : writeBox m l x = some m1) (a : Nat) : valueOf m1.heap a = valueOf m.heap a := by
  by_cases hne : Loc.member a = l
  · subst hne
    simp only [writeBox] at hw
    split at hw
    · rename_i n hn
      have := Option.some.inj hw
      subst this
      have hlt : a < m.heap.length := by
        by_contra hlt
        rw [List.getElem?_eq_none (Nat.le_of_not_lt hlt)] at hn
        simp at hn
      simp [valueOf, hlt, hn]
    · simp at hw
  · exact valueOf_congr (heap_writeBox_of_ne hw a hne)

/-- A store into a box changes no cell from or to released storage. -/
theorem dead_writeBox {V : Type} {m m1 : Mem V} {l : Loc} {x : Option Nat}
    (hw : writeBox m l x = some m1) (a : Nat) :
    m1.heap[a]? = some Cell.dead ↔ m.heap[a]? = some Cell.dead := by
  by_cases hne : Loc.member a = l
  · subst hne
    simp only [writeBox] at hw
    split at hw
    · rename_i n hn
      have := Option.some.inj hw
      subst this
      have hlt : a < m.heap.length := by
        by_contra hlt
        rw [List.getElem?_eq_none (Nat.le_of_not_lt hlt)] at hn
        simp at hn
      simp [hlt, hn]
    · simp at hw
  · rw [heap_writeBox_of_ne hw a hne]

theorem Chain.live {V : Type} {h : List (Cell V)} :
    ∀ {as : List Nat} {p : Option Nat}, Chain h p as →
      ∀ a ∈ as, ∃ n : Node V, h[a]? = some (Cell.live n)
  | [], _, _, _, ha => by simp at ha
  | _ :: _, _, ⟨_, _, hnx, hrest⟩, a, ha => by
    rcases List.mem_cons.mp ha with rfl | hmem
    · obtain ⟨n, hn, _⟩ := nextOf_live hnx
      exact ⟨n, hn⟩
    · exact Chain.live hrest a hmem

/-- What hangs from a box is not disturbed by a store into a box that is no part of it. -/
theorem Chain.of_writeBox {V : Type} {m m1 : Mem V} {l : Loc} {x p : Option Nat}
    {as : List Nat} (hw : writeBox m l x = some m1) (hc : Chain m.heap p as)
    (hl : ∀ a ∈ as, Loc.member a ≠ l) : Chain m1.heap p as :=
  Chain.congr hc (fun a ha => nextOf_congr (heap_writeBox_of_ne hw a (hl a ha)))

/-- A box is no member of a node of what hangs from it. -/
theorem Chain.box_not_mem {V : Type} {m : Mem V} {l : Loc} {p : Option Nat} {as : List Nat}
    (hbox : readBox m l = some p) (hc : Chain m.heap p as) : ∀ a ∈ as, Loc.member a ≠ l := by
  intro a ha he
  subst he
  exact Chain.holder_not_mem (by simpa [readBox] using hbox) hc ha

/-- A box whose chain has been released is still there, holding its old pointer. -/
theorem readBox_release {V : Type} (m : Mem V) (l : Loc) (as : List Nat)
    (hl : ∀ a ∈ as, Loc.member a ≠ l) :
    readBox { m with heap := release m.heap as } l = readBox m l := by
  cases l with
  | stack i => rfl
  | member c =>
    have hc : c ∉ as := fun hm => hl c hm rfl
    exact nextOf_congr (getElem?_release_of_not_mem m.heap as c hc)

/-! ## Copying a chain -/

theorem values_congr {V : Type} {h h1 : List (Cell V)} {as : List Nat}
    (he : ∀ a ∈ as, h1[a]? = h[a]?) : values h1 as = values h as :=
  List.map_congr_left (fun a ha => valueOf_congr (he a ha))

/-- Running `new T (*q)` on a chain of `as.length + 1` nodes succeeds, given that much fuel and
allocation budget.  The new node is at the first fresh address; the copy is a chain `cs` of
fresh addresses carrying the payloads of the original; no cell that existed before is
touched. -/
theorem new_copy_chain {V : Type} :
    ∀ (as : List Nat) (q : Nat) (m : Mem V) (fuel : Nat),
      Chain m.heap (some q) (q :: as) → as.length + 1 ≤ fuel → as.length + 1 ≤ m.budget →
      ∃ (m1 : Mem V) (cs : List Nat), new_copy fuel m q = Res.ok m.heap.length m1 ∧
        Chain m1.heap (some m.heap.length) (m.heap.length :: cs) ∧
        values m1.heap (m.heap.length :: cs) = values m.heap (q :: as) ∧
        (∀ c ∈ cs, m.heap.length < c) ∧
        (∀ c : Nat, c < m.heap.length → m1.heap[c]? = m.heap[c]?) ∧
        m1.heap.length = m.heap.length + (as.length + 1) ∧
        m1.stack = m.stack ∧ m1.budget + (as.length + 1) = m.budget
  | _, _, _, 0, _, hf, _ => by simp at hf
  | [], q, m, f + 1, hc, _, hb => by
    obtain ⟨_, nx, hnx, hrest⟩ := hc
    have hnone : nx = none := hrest
    subst hnone
    obtain ⟨n, hn, hnn⟩ := nextOf_live hnx
    have hq : q < m.heap.length := nextOf_lt hnx
    have hb0 : m.budget ≠ 0 := by
      simp at hb
      omega
    have hn1 : (m.heap ++ [Cell.raw])[q]? = some (Cell.live n) := by
      rw [List.getElem?_append_left hq]; exact hn
    have hset : (m.heap ++ [Cell.raw]).set m.heap.length (Cell.live ⟨n.value, none⟩)
        = m.heap ++ [Cell.live ⟨n.value, none⟩] := by
      rw [List.set_append_right _ _ (Nat.le_refl _)]
      simp
    refine ⟨{ m with heap := m.heap ++ [Cell.live ⟨n.value, none⟩], budget := m.budget - 1 }, [],
      ?_, ?_, ?_, ?_, ?_, ?_, rfl, ?_⟩
    · simp only [new_copy, hb0, if_false, hn1, hnn, hset]
    · exact ⟨rfl, none, by simp [nextOf], rfl⟩
    · simp [values, valueOf, hn]
    · intro c hc
      simp at hc
    · intro c hc
      exact List.getElem?_append_left hc
    · simp
    · simp
      omega
  | a :: as, q, m, f + 1, hc, hf, hb => by
    obtain ⟨_, nx, hnx, hrest⟩ := hc
    have hnx1 : nx = some a := hrest.1
    subst hnx1
    obtain ⟨n, hn, hnn⟩ := nextOf_live hnx
    have hq : q < m.heap.length := nextOf_lt hnx
    have hb0 : m.budget ≠ 0 := by
      simp at hb
      omega
    have hn1 : (m.heap ++ [Cell.raw])[q]? = some (Cell.live n) := by
      rw [List.getElem?_append_left hq]; exact hn
    have hrest1 : Chain (m.heap ++ [Cell.raw]) (some a) (a :: as) :=
      Chain.congr hrest (fun c hc => nextOf_append m.heap _ (Chain.lt hrest c hc))
    obtain ⟨m2, cs, hrun, hchain, hvals, hfresh, hold, hlen, hstack, hbud⟩ :=
      new_copy_chain as a
        { m with heap := m.heap ++ [Cell.raw], budget := m.budget - 1 } f hrest1
        (by simpa using hf) (by simp at hb ⊢; omega)
    dsimp only at hrun hchain hvals hfresh hold hlen hstack hbud
    simp only [List.length_append, List.length_singleton] at hrun hchain hvals hfresh hold hlen
    have hk : m.heap.length < m2.heap.length := by omega
    have hne : ∀ c ∈ (m.heap.length + 1) :: cs, m.heap.length ≠ c := by
      intro c hc
      rcases List.mem_cons.mp hc with e | hm
      · omega
      · have := hfresh c hm
        omega
    have hset : ∀ c ∈ (m.heap.length + 1) :: cs,
        (m2.heap.set m.heap.length (Cell.live ⟨n.value, some (m.heap.length + 1)⟩))[c]?
          = m2.heap[c]? :=
      fun c hc => List.getElem?_set_ne (hne c hc)
    have hchain1 : Chain (m2.heap.set m.heap.length (Cell.live ⟨n.value, some (m.heap.length + 1)⟩))
        (some (m.heap.length + 1)) ((m.heap.length + 1) :: cs) :=
      Chain.congr hchain (fun c hc => nextOf_congr (hset c hc))
    have hv : values m2.heap ((m.heap.length + 1) :: cs) = values m.heap (a :: as) := by
      rw [hvals]
      exact values_congr (fun c hc => List.getElem?_append_left (Chain.lt hrest c hc))
    have hv1 : values (m2.heap.set m.heap.length (Cell.live ⟨n.value, some (m.heap.length + 1)⟩))
        ((m.heap.length + 1) :: cs) = values m2.heap ((m.heap.length + 1) :: cs) :=
      values_congr hset
    have hhead : valueOf (m2.heap.set m.heap.length
        (Cell.live ⟨n.value, some (m.heap.length + 1)⟩)) m.heap.length = valueOf m.heap q := by
      simp [valueOf, hk, hn]
    refine ⟨{ m2 with heap := m2.heap.set m.heap.length (Cell.live ⟨n.value, some (m.heap.length + 1)⟩) },
      (m.heap.length + 1) :: cs, ?_, ?_, ?_, ?_, ?_, ?_, hstack, ?_⟩
    · simp only [new_copy, hb0, if_false, hn1, hnn, hrun]
    · exact ⟨rfl, some (m.heap.length + 1), by simp [nextOf, hk], hchain1⟩
    · show values _ (m.heap.length :: (m.heap.length + 1) :: cs) = values m.heap (q :: a :: as)
      simp only [values, List.map_cons] at hv hv1 hhead ⊢
      rw [hhead]
      exact congrArg _ (hv1.trans hv)
    · intro c hc
      have := hne c hc
      rcases List.mem_cons.mp hc with e | hm
      · omega
      · have := hfresh c hm
        omega
    · intro c hc
      show (m2.heap.set m.heap.length _)[c]? = m.heap[c]?
      rw [List.getElem?_set_ne (by omega), hold c (by omega)]
      exact List.getElem?_append_left hc
    · show (m2.heap.set m.heap.length _).length = _
      rw [List.length_set, hlen]
      simp
      omega
    · show m2.budget + _ = _
      simp at hb ⊢
      omega

/-! ## Copy assignment along two chains -/

/-- Overwriting the payload of a constructed node leaves every `next` member as it is. -/
theorem nextOf_set_value {V : Type} {h : List (Cell V)} {d : Nat} {nd : Node V}
    (hd : h[d]? = some (Cell.live nd)) (v : V) (c : Nat) :
    nextOf (h.set d (Cell.live ⟨v, nd.next⟩)) c = nextOf h c := by
  by_cases hdc : d = c
  · subst hdc
    obtain ⟨hlt, _⟩ := List.getElem?_eq_some.mp hd
    simp [nextOf, hlt, hd]
  · exact nextOf_set_ne h _ hdc

/-- Copy assignment `self = a` where `ds` hangs from `self` and `qs` from `a`, the two chains
being allowed to share nodes and either box being allowed to sit inside either chain.  With
fuel for both chains and allocation budget for the source chain the call completes and
returns `self`.  Afterwards `self` holds null when `a` held null, its old pointer when both
held one, and the first fresh address when only `a` held one; cells outside `ds` that do not
hold `self`, payloads outside `ds` and automatic boxes other than `self` are as they were;
when both held a pointer the node of `self` carries the payload the node of `a` carried.
When no node of `ds` is a node of `qs` and `self` is no member of a node of `qs`, what hangs
from `self` afterwards carries the payloads of `qs`. -/
theorem assign_copy_chain {V : Type} :
    ∀ (fuel : Nat) (m : Mem V) (self a : Loc) (pd pq : Option Nat) (ds qs : List Nat),
      readBox m self = some pd → readBox m a = some pq →
      Chain m.heap pd ds → Chain m.heap pq qs →
      ds.length + qs.length < fuel → qs.length ≤ m.budget →
      ∃ (m1 : Mem V) (pd1 : Option Nat),
        assign_copy fuel m self a = Res.ok (some self) m1 ∧
        readBox m1 self = some pd1 ∧
        (pq = none → pd1 = none) ∧
        (pq ≠ none → pd ≠ none → pd1 = pd) ∧
        (pq ≠ none → pd = none → pd1 = some m.heap.length) ∧
        (∀ c : Nat, c < m.heap.length → c ∉ ds → Loc.member c ≠ self →
          m1.heap[c]? = m.heap[c]?) ∧
        (∀ c : Nat, c < m.heap.length → c ∉ ds → valueOf m1.heap c = valueOf m.heap c) ∧
        (∀ i : Nat, Loc.stack i ≠ self → m1.stack[i]? = m.stack[i]?) ∧
        m.heap.length ≤ m1.heap.length ∧
        (pq = none → m1.heap.length = m.heap.length ∧
          ∀ c ∈ ds, m1.heap[c]? = some Cell.dead) ∧
        (pq ≠ none → pd = none → m1.heap.length = m.heap.length + qs.length) ∧
        (∀ d q : Nat, pd = some d → pq = some q → valueOf m1.heap d = valueOf m.heap q) ∧
        ((∀ c ∈ ds, c ∉ qs) → (∀ c ∈ qs, Loc.member c ≠ self) →
          ∃ ds1 : List Nat, Chain m1.heap pd1 ds1 ∧ values m1.heap ds1 = values m.heap qs)
  | 0, _, _, _, _, _, _, _, _, _, _, _, hf, _ => by simp at hf
  | f + 1, m, self, a, pd, pq, ds, qs, hself, ha, hds, hqs, hf, hb => by
    by_cases hsa : self = a
    · subst hsa
      have hpp : pd = pq := by
        rw [hself] at ha
        exact Option.some.inj ha
      subst hpp
      have hdq : ds = qs := Chain.det hds hqs
      subst hdq
      refine ⟨m, pd, by simp [assign_copy], hself, fun h => h, fun _ _ => rfl,
        fun h1 h2 => absurd h2 h1, fun _ _ _ _ => rfl, fun _ _ _ => rfl, fun _ _ => rfl,
        Nat.le_refl _, ?_, fun h1 h2 => absurd h2 h1, ?_, ?_⟩
      · intro hp
        subst hp
        cases ds with
        | nil => exact ⟨rfl, fun c hc => by simp at hc⟩
        | cons d ds1 => exact absurd hds.1 (by simp)
      · intro d q hd hq
        rw [hd] at hq
        rw [Option.some.inj hq]
      · intro hsep _
        cases ds with
        | nil => exact ⟨[], hds, rfl⟩
        | cons d ds1 => exact absurd (List.mem_cons_self d ds1) (hsep d (List.mem_cons_self d ds1))
    · cases pq with
      | none =>
        have hqn : qs = [] := by
          cases qs with
          | nil => rfl
          | cons q qs1 => exact absurd hqs.1 (by simp)
        subst hqn
        have hd := delete_ptr_chain m ds pd f hds (by simp at hf; omega)
        have hnot := Chain.box_not_mem hself hds
        have hb1 : readBox { m with heap := release m.heap ds } self = some pd := by
          rw [readBox_release m self ds hnot]; exact hself
        obtain ⟨m2, hw⟩ := writeBox_of_readBox hb1 none
        have hlen : m2.heap.length = m.heap.length := by
          rw [length_writeBox hw]
          exact length_release m.heap ds
        refine ⟨m2, none, by simp only [assign_copy, hsa, if_false, ha, hself, hd, hw],
          readBox_writeBox_self hw, fun _ => rfl, fun h => absurd rfl h, fun h => absurd rfl h,
          ?_, ?_, ?_, Nat.le_of_eq hlen.symm, fun _ => ⟨hlen, ?_⟩, fun h => absurd rfl h,
          fun _ _ _ h => absurd h (by simp), fun _ _ => ⟨[], rfl, rfl⟩⟩
        · intro c _ hc hne
          rw [heap_writeBox_of_ne hw c hne]
          exact getElem?_release_of_not_mem m.heap ds c hc
        · intro c _ hc
          rw [valueOf_writeBox hw c]
          exact valueOf_congr (getElem?_release_of_not_mem m.heap ds c hc)
        · intro i hi
          exact stack_writeBox_of_ne hw i hi
        · intro c hc
          rw [dead_writeBox hw c]
          exact getElem?_release_of_mem m.heap ds c hc (Chain.lt hds c hc)
      | some q =>
        cases qs with
        | nil => exact absurd hqs (by simp [Chain])
        | cons q0 qs1 =>
          have hq0 : q = q0 := Option.some.inj hqs.1
          subst hq0
          cases pd with
          | none =>
            have hdn : ds = [] := by
              cases ds with
              | nil => rfl
              | cons d ds1 => exact absurd hds.1 (by simp)
            subst hdn
            obtain ⟨m2, cs, hrun, hchain, hvals, hfresh, hold, hlen, hstack, _⟩ :=
              new_copy_chain qs1 q m f hqs (by simp at hf; omega) (by simpa using hb)
            have hself2 : readBox m2 self = some none := by
              cases self with
              | stack i =>
                show m2.stack[i]? = some none
                rw [hstack]
                exact hself
              | member c =>
                show nextOf m2.heap c = some none
                rw [nextOf_congr (hold c (nextOf_lt hself))]
                exact hself
            obtain ⟨m3, hw⟩ := writeBox_of_readBox hself2 (some m.heap.length)
            have hlen3 : m3.heap.length = m.heap.length + (qs1.length + 1) := by
              rw [length_writeBox hw]
              exact hlen
            have hnotmem : ∀ c ∈ m.heap.length :: cs, Loc.member c ≠ self := by
              intro c hc he
              subst he
              have h1 : c < m.heap.length := nextOf_lt hself
              rcases List.mem_cons.mp hc with e | hm
              · omega
              · have := hfresh c hm
                omega
            refine ⟨m3, some m.heap.length,
              by simp only [assign_copy, hsa, if_false, ha, hself, hrun, hw],
              readBox_writeBox_self hw, fun h => absurd h (by simp), fun _ h => absurd rfl h,
              fun _ _ => rfl, ?_, ?_, ?_, by omega, fun h => absurd h (by simp),
              fun _ _ => by simpa using hlen3, fun _ _ h => absurd h (by simp), ?_⟩
            · intro c hc _ hne
              rw [heap_writeBox_of_ne hw c hne]
              exact hold c hc
            · intro c hc _
              rw [valueOf_writeBox hw c]
              exact valueOf_congr (hold c hc)
            · intro i hi
              rw [stack_writeBox_of_ne hw i hi, hstack]
            · intro _ _
              refine ⟨m.heap.length :: cs, Chain.of_writeBox hw hchain hnotmem, ?_⟩
              rw [← hvals]
              exact List.map_congr_left (fun c _ => valueOf_writeBox hw c)
          | some d =>
            cases ds with
            | nil => exact absurd hds (by simp [Chain])
            | cons d0 ds1 =>
              have hd0 : d = d0 := Option.some.inj hds.1
              subst hd0
              have hdtail : d ∉ ds1 := Chain.not_mem_tail hds
              have hselfnot := Chain.box_not_mem hself hds
              obtain ⟨_, nxd, hnxd, hds1⟩ := hds
              obtain ⟨_, nxq, hnxq, hqs1⟩ := hqs
              obtain ⟨nd, hnd, hndn⟩ := nextOf_live hnxd
              obtain ⟨nq, hnq, hnqn⟩ := nextOf_live hnxq
              have hdlt : d < m.heap.length := nextOf_lt hnxd
              have hnext : ∀ c : Nat,
                  nextOf (m.heap.set d (Cell.live ⟨nq.value, nd.next⟩)) c = nextOf m.heap c :=
                nextOf_set_value hnd nq.value
              obtain ⟨m2, pd1, hrun, hread, _, _, _, hA3, hA4, hA5, hA6, _, _, _, hB2⟩ :=
                assign_copy_chain f
                  { m with heap := m.heap.set d (Cell.live ⟨nq.value, nd.next⟩) }
                  (Loc.member d) (Loc.member q) nxd nxq ds1 qs1
                  (by show nextOf _ d = some nxd
                      rw [hnext]; exact hnxd)
                  (by show nextOf _ q = some nxq
                      rw [hnext]; exact hnxq)
                  (Chain.congr hds1 (fun c _ => hnext c))
                  (Chain.congr hqs1 (fun c _ => hnext c))
                  (by simp at hf; omega)
                  (by show qs1.length ≤ m.budget
                      simp at hb; omega)
              dsimp only at hrun hA3 hA4 hA5 hA6 hB2
              rw [List.length_set] at hA3 hA4 hA6
              have hval : valueOf m2.heap d = valueOf m.heap q := by
                rw [hA4 d hdlt hdtail, valueOf_of_live hnq]
                simp [valueOf, hdlt]
              have hselfd : readBox m2 self = some (some d) := by
                cases self with
                | stack i =>
                  show m2.stack[i]? = some (some d)
                  rw [hA5 i (by simp)]
                  exact hself
                | member c =>
                  have hcd : c ∉ d :: ds1 := fun hm => hselfnot c hm rfl
                  have hc1 : c ≠ d := fun e => hcd (e ▸ List.mem_cons_self d ds1)
                  have hc2 : c ∉ ds1 := fun hm => hcd (List.mem_cons_of_mem d hm)
                  show nextOf m2.heap c = some (some d)
                  rw [nextOf_congr (hA3 c (nextOf_lt hself) hc2 (by simpa using hc1)),
                    nextOf_set_ne _ _ (Ne.symm hc1)]
                  exact hself
              refine ⟨m2, some d,
                by simp only [assign_copy, hsa, if_false, ha, hself, hnq, hnd, hrun],
                hselfd, fun h => absurd h (by simp), fun _ _ => rfl,
                fun _ h => absurd h (by simp), ?_, ?_, ?_, hA6, fun h => absurd h (by simp),
                fun _ h => absurd h (by simp), ?_, ?_⟩
              · intro c hc hmem hne
                have hc1 : c ≠ d := fun e => hmem (e ▸ List.mem_cons_self d ds1)
                have hc2 : c ∉ ds1 := fun hm => hmem (List.mem_cons_of_mem d hm)
                rw [hA3 c hc hc2 (by simpa using hc1)]
                exact List.getElem?_set_ne (Ne.symm hc1)
              · intro c hc hmem
                have hc1 : c ≠ d := fun e => hmem (e ▸ List.mem_cons_self d ds1)
                have hc2 : c ∉ ds1 := fun hm => hmem (List.mem_cons_of_mem d hm)
                rw [hA4 c hc hc2]
                exact valueOf_set_ne _ _ (Ne.symm hc1)
              · intro i _
                exact hA5 i (by simp)
              · intro d1 q1 hd1 hq1
                rw [← Option.some.inj hd1, ← Option.some.inj hq1]
                exact hval
              · intro hs1 hs2
                have hdq : d ∉ q :: qs1 := hs1 d (List.mem_cons_self d ds1)
                obtain ⟨ds2, hc2, hv2⟩ := hB2
                  (fun c hc hm => hs1 c (List.mem_cons_of_mem d hc) (List.mem_cons_of_mem q hm))
                  (fun c hc he => hdq (by
                    have : c = d := by simpa using he
                    exact this ▸ List.mem_cons_of_mem q hc))
                refine ⟨d :: ds2, ⟨rfl, pd1, hread, hc2⟩, ?_⟩
                have htail : values m2.heap ds2 = values m.heap qs1 := by
                  rw [hv2]
                  refine values_congr (fun c hc => List.getElem?_set_ne ?_)
                  intro e
                  exact hdq (e ▸ List.mem_cons_of_mem q hc)
                show valueOf m2.heap d :: values m2.heap ds2
                  = valueOf m.heap q :: values m.heap qs1
                rw [hval, htail]

/-! ## The claims -/

/-- C1. Copy construction.  For every box `a` holding `q`, with the nodes `as` hanging from
`q`, and fuel and allocation budget for their number, `value_ptr (const value_ptr &a)`
completes and yields a new box `b` holding `p`, where `p` is null exactly when `q` is; from
`p` hangs a chain `cs` carrying the payloads of `as`; `a` still holds `q`, `as` still hangs
from it with the payloads it had, no cell that existed before has changed and every box that
existed before holds what it held; every node of `cs` is a fresh allocation and none is a node of `as`; one
allocation is made per node of `as`; and overwriting any node of one of the two structures
leaves the other structure and its payloads as they are. -/
theorem ctor_copy_spec {V : Type} (fuel : Nat) (m : Mem V) (a : Loc) (q : Option Nat)
    (as : List Nat) (hbox : readBox m a = some q) (hown : Chain m.heap q as)
    (hfuel : as.length ≤ fuel) (hbudget : as.length ≤ m.budget) :
    ∃ (m1 : Mem V) (b : Loc) (p : Option Nat) (cs : List Nat),
      ctor_copy fuel m a = Res.ok b m1 ∧
      b ≠ a ∧ readBox m b = none ∧ readBox m1 b = some p ∧
      (p = none ↔ q = none) ∧
      Chain m1.heap p cs ∧ values m1.heap cs = values m.heap as ∧
      readBox m1 a = some q ∧ Chain m1.heap q as ∧ values m1.heap as = values m.heap as ∧
      (∀ c : Nat, c < m.heap.length → m1.heap[c]? = m.heap[c]?) ∧
      (∀ (l : Loc) (y : Option Nat), readBox m l = some y → readBox m1 l = some y) ∧
      (∀ c ∈ cs, m.heap.length ≤ c ∧ c ∉ as) ∧
      m1.heap.length = m.heap.length + as.length ∧
      (∀ c ∈ cs, ∀ x : Cell V,
        Chain (m1.heap.set c x) q as ∧ values (m1.heap.set c x) as = values m.heap as) ∧
      (∀ c ∈ as, ∀ x : Cell V,
        Chain (m1.heap.set c x) p cs ∧ values (m1.heap.set c x) cs = values m1.heap cs) := by
  have key : ∃ (m2 : Mem V) (p : Option Nat) (cs : List Nat),
      copy_init fuel m a = Res.ok p m2 ∧ (p = none ↔ q = none) ∧
      Chain m2.heap p cs ∧ values m2.heap cs = values m.heap as ∧
      (∀ c : Nat, c < m.heap.length → m2.heap[c]? = m.heap[c]?) ∧
      (∀ c ∈ cs, m.heap.length ≤ c) ∧
      m2.heap.length = m.heap.length + as.length ∧ m2.stack = m.stack := by
    cases as with
    | nil =>
      have hq : q = none := hown
      subst hq
      exact ⟨m, none, [], by simp [copy_init, hbox], Iff.rfl, rfl, rfl, fun _ _ => rfl,
        fun c hc => by simp at hc, rfl, rfl⟩
    | cons q0 as1 =>
      have hq : q = some q0 := hown.1
      subst hq
      obtain ⟨m2, cs, hrun, hchain, hvals, hfresh, hold, hlen, hstack, _⟩ :=
        new_copy_chain as1 q0 m fuel hown (by simpa using hfuel) (by simpa using hbudget)
      refine ⟨m2, some m.heap.length, m.heap.length :: cs, by simp [copy_init, hbox, hrun],
        by simp, hchain, hvals, hold, ?_, by simpa using hlen, hstack⟩
      intro c hc
      rcases List.mem_cons.mp hc with e | hm
      · omega
      · exact Nat.le_of_lt (hfresh c hm)
  obtain ⟨m2, p, cs, hrun, hnull, hchain, hvals, hold, hfresh, hlen, hstack⟩ := key
  have hlt : ∀ c ∈ as, c < m.heap.length := Chain.lt hown
  have hsep : ∀ c ∈ cs, c ∉ as := fun c hc hmem =>
    Nat.lt_irrefl c (Nat.lt_of_lt_of_le (hlt c hmem) (hfresh c hc))
  have hsrc : Chain m2.heap q as :=
    Chain.congr hown (fun c hc => nextOf_congr (hold c (hlt c hc)))
  have hsrcv : values m2.heap as = values m.heap as :=
    values_congr (fun c hc => hold c (hlt c hc))
  have hboxes : ∀ (l : Loc) (y : Option Nat), readBox m l = some y →
      readBox { m2 with stack := m2.stack ++ [p] } l = some y := by
    intro l y hl
    cases l with
    | stack i =>
      simp only [readBox] at hl ⊢
      obtain ⟨hlti, _⟩ := List.getElem?_eq_some.mp hl
      rw [hstack, List.getElem?_append_left hlti]
      exact hl
    | member c =>
      have hc : c < m.heap.length := nextOf_lt hl
      show nextOf m2.heap c = some y
      rw [nextOf_congr (hold c hc)]
      exact hl
  have hnew : readBox m (Loc.stack m2.stack.length) = none := by
    simp [readBox, hstack]
  have hne : Loc.stack m2.stack.length ≠ a := by
    intro he
    rw [he, hbox] at hnew
    simp at hnew
  refine ⟨{ m2 with stack := m2.stack ++ [p] }, Loc.stack m2.stack.length, p, cs, ?_, hne, hnew,
    ?_, hnull, hchain, hvals, hboxes a q hbox, hsrc, hsrcv, hold, hboxes,
    fun c hc => ⟨hfresh c hc, hsep c hc⟩, hlen, ?_, ?_⟩
  · simp [ctor_copy, hrun]
  · simp [readBox]
  · intro c hc x
    have hset : ∀ d ∈ as, (m2.heap.set c x)[d]? = m.heap[d]? := by
      intro d hd
      have hcd : c ≠ d := fun e => hsep c hc (e ▸ hd)
      rw [List.getElem?_set_ne hcd]
      exact hold d (hlt d hd)
    exact ⟨Chain.congr hown (fun d hd => nextOf_congr (hset d hd)), values_congr hset⟩
  · intro c hc x
    have hset : ∀ d ∈ cs, (m2.heap.set c x)[d]? = m2.heap[d]? := by
      intro d hd
      have hcd : c ≠ d := fun e => hsep d hd (e ▸ hc)
      exact List.getElem?_set_ne hcd
    exact ⟨Chain.congr hchain (fun d hd => nextOf_congr (hset d hd)), values_congr hset⟩

/-- C1 at a concrete input: copying box 0 of `demo_list`, which owns the nodes 0, 1. -/
theorem ctor_copy_spec_witness :
    (readBox demo_list (Loc.stack 0) = some (some 0) ∧
      Chain demo_list.heap (some 0) [0, 1] ∧
      [0, 1].length ≤ 2 ∧ [0, 1].length ≤ demo_list.budget) ∧
    ∃ (m1 : Mem Int) (b : Loc) (p : Option Nat) (cs : List Nat),
      ctor_copy 2 demo_list (Loc.stack 0) = Res.ok b m1 ∧
      b ≠ Loc.stack 0 ∧ readBox demo_list b = none ∧ readBox m1 b = some p ∧
      (p = none ↔ (some 0 : Option Nat) = none) ∧
      Chain m1.heap p cs ∧ values m1.heap cs = values demo_list.heap [0, 1] ∧
      readBox m1 (Loc.stack 0) = some (some 0) ∧ Chain m1.heap (some 0) [0, 1] ∧
      values m1.heap [0, 1] = values demo_list.heap [0, 1] ∧
      (∀ c : Nat, c < demo_list.heap.length → m1.heap[c]? = demo_list.heap[c]?) ∧
      (∀ (l : Loc) (y : Option Nat), readBox demo_list l = some y → readBox m1 l = some y) ∧
      (∀ c ∈ cs, demo_list.heap.length ≤ c ∧ c ∉ [0, 1]) ∧
      m1.heap.length = demo_list.heap.length + [0, 1].length ∧
      (∀ c ∈ cs, ∀ x : Cell Int,
        Chain (m1.heap.set c x) (some 0) [0, 1] ∧
          values (m1.heap.set c x) [0, 1] = values demo_list.heap [0, 1]) ∧
      (∀ c ∈ [0, 1], ∀ x : Cell Int,
        Chain (m1.heap.set c x) p cs ∧ values (m1.heap.set c x) cs = values m1.heap cs) :=
  ⟨⟨rfl, by decide, by decide, by decide⟩,
    ctor_copy_spec 2 demo_list (Loc.stack 0) (some 0) [0, 1] rfl
      (by decide) (by decide) (by decide)⟩

/-- C2. Move construction: for every box `a` holding `x`, `value_ptr (value_ptr &&a)` yields a
new box, different from `a`, that holds exactly `x`; `a` is empty afterwards; whatever hung
from `x` still hangs from it with the same payloads; the free store has the same size, the
same released cells and the same payloads, the allocation budget is untouched, and every
other box is unchanged. -/
theorem ctor_move_spec {V : Type} (m : Mem V) (a : Loc) (x : Option Nat)
    (hbox : readBox m a = some x) :
    ∃ (m1 : Mem V) (b : Loc), ctor_move m a = Res.ok b m1 ∧
      b ≠ a ∧ readBox m b = none ∧
      readBox m1 b = some x ∧
      readBox m1 a = some none ∧
      (∀ as : List Nat, Chain m.heap x as →
        Chain m1.heap x as ∧ values m1.heap as = values m.heap as) ∧
      m1.heap.length = m.heap.length ∧ m1.budget = m.budget ∧
      (∀ c : Nat, m1.heap[c]? = some Cell.dead ↔ m.heap[c]? = some Cell.dead) ∧
      (∀ c : Nat, valueOf m1.heap c = valueOf m.heap c) ∧
      (∀ l : Loc, l ≠ a → l ≠ b → readBox m1 l = readBox m l) := by
  obtain ⟨m2, hw⟩ := writeBox_of_readBox hbox none
  have hstack : m2.stack.length = m.stack.length := by
    cases a with
    | stack i =>
      simp only [writeBox] at hw
      split at hw
      · have := Option.some.inj hw
        subst this
        simp
      · simp at hw
    | member c =>
      simp only [writeBox] at hw
      split at hw
      · have := Option.some.inj hw
        subst this
        rfl
      · simp at hw
  have hnew : readBox m (Loc.stack m2.stack.length) = none := by
    simp [readBox, hstack]
  have hne : Loc.stack m2.stack.length ≠ a := by
    intro he
    rw [he, hbox] at hnew
    simp at hnew
  have h1 := length_writeBox hw
  have h2 := budget_writeBox hw
  have h3 := dead_writeBox hw
  have h4 := valueOf_writeBox hw
  refine ⟨{ m2 with stack := m2.stack ++ [x] }, Loc.stack m2.stack.length, ?_, hne, hnew, ?_, ?_,
    ?_, h1, h2, h3, h4, ?_⟩
  · simp [ctor_move, hbox, hw]
  · simp [readBox]
  · have hself := readBox_writeBox_self hw
    cases a with
    | stack i =>
      simp only [readBox] at hself ⊢
      obtain ⟨hlt, _⟩ := List.getElem?_eq_some.mp hself
      rw [List.getElem?_append_left hlt]
      exact hself
    | member c => exact hself
  · intro as hc
    have hc1 : Chain m2.heap x as := Chain.of_writeBox hw hc (Chain.box_not_mem hbox hc)
    refine ⟨hc1, ?_⟩
    simp only [values]
    exact List.map_congr_left (fun c _ => valueOf_writeBox hw c)
  · intro l hla hlb
    have h1 := readBox_writeBox_of_ne hw l hla
    cases l with
    | stack i =>
      simp only [readBox] at h1 ⊢
      have hi : i ≠ m2.stack.length := fun e => hlb (by rw [e])
      by_cases hlt : i < m2.stack.length
      · rw [List.getElem?_append_left hlt]
        exact h1
      · have hgt : m2.stack.length + 1 ≤ i := by omega
        rw [List.getElem?_eq_none (by simp; omega), ← h1, List.getElem?_eq_none (by omega)]
    | member c => exact h1

/-- C2 at a concrete input: moving from box 0 of `demo_list`, which holds address 0. -/
theorem ctor_move_spec_witness :
    readBox demo_list (Loc.stack 0) = some (some 0) ∧
    ∃ (m1 : Mem Int) (b : Loc), ctor_move demo_list (Loc.stack 0) = Res.ok b m1 ∧
      b ≠ Loc.stack 0 ∧ readBox demo_list b = none ∧
      readBox m1 b = some (some 0) ∧
      readBox m1 (Loc.stack 0) = some none ∧
      (∀ as : List Nat, Chain demo_list.heap (some 0) as →
        Chain m1.heap (some 0) as ∧ values m1.heap as = values demo_list.heap as) ∧
      m1.heap.length = demo_list.heap.length ∧ m1.budget = demo_list.budget ∧
      (∀ c : Nat, m1.heap[c]? = some Cell.dead ↔ demo_list.heap[c]? = some Cell.dead) ∧
      (∀ c : Nat, valueOf m1.heap c = valueOf demo_list.heap c) ∧
      (∀ l : Loc, l ≠ Loc.stack 0 → l ≠ b → readBox m1 l = readBox demo_list l) :=
  ⟨rfl, ctor_move_spec demo_list (Loc.stack 0) (some 0) rfl⟩

/-- C3. Move assignment from a box nested in the destination's own value.  Box 0 of
`demo_list` owns the list 1, 2 and the source is the member `next` of its first node
(`a = std::move (a->next)`).  `delete p` destroys the first node and, through its member, the
second; the following `p = a.p` then reads the member of the destroyed node.  With any fuel
that lets `delete` finish the outcome is undefined behaviour, with less the fuel runs out:
for no amount of fuel does the call end normally. -/
theorem assign_move_from_own_member :
    (∀ fuel : Nat, assign_move (fuel + 2) demo_list (Loc.stack 0) (Loc.member 0) = Res.ub) ∧
    assign_move 0 demo_list (Loc.stack 0) (Loc.member 0) = Res.outOfFuel ∧
    assign_move 1 demo_list (Loc.stack 0) (Loc.member 0) = Res.outOfFuel ∧
    readBox demo_list (Loc.stack 0) = some (some 0) ∧
    readBox demo_list (Loc.member 0) = some (some 1) := by
  refine ⟨?_, rfl, rfl, rfl, rfl⟩
  intro fuel
  have hc : Chain demo_list.heap (some 0) [0, 1] := by
    simp [Chain, nextOf, demo_list]
  have hd := delete_ptr_chain demo_list [0, 1] (some 0) (fuel + 2) hc (by simp)
  have hb : readBox demo_list (Loc.stack 0) = some (some 0) := rfl
  simp only [assign_move, hb, hd]
  rfl

/-- C4. Move assignment never returns a reference: whatever the memory, the boxes and the
fuel, no `return` statement ends the call.  On `demo_pair` the call `b1 = std::move (b0)`
completes with box 1 owning node 0 and hands back nothing, where copy assignment between the
same two boxes hands back the destination. -/
theorem assign_move_returns_nothing :
    (∀ (V : Type) (fuel : Nat) (m : Mem V) (self a : Loc),
      Res.returned (assign_move fuel m self a) = none) ∧
    assign_move 1 demo_pair (Loc.stack 1) (Loc.stack 0)
      = Res.ok none ⟨[Cell.live ⟨7, none⟩, Cell.dead], [none, some 0], 5⟩ ∧
    Res.returned (assign_copy 2 demo_pair (Loc.stack 1) (Loc.stack 0)) = some (Loc.stack 1) := by
  refine ⟨?_, rfl, rfl⟩
  intro V fuel m self a
  unfold assign_move
  repeat' split
  all_goals rfl

/-- C5. Null assignment never returns a reference: whatever the memory, the box and the fuel,
no `return` statement ends the call.  On `demo_pair` the call `b0 = nullptr` completes, with
box 0 empty and its node released, and hands back nothing. -/
theorem assign_nullptr_returns_nothing :
    (∀ (V : Type) (fuel : Nat) (m : Mem V) (self : Loc),
      Res.returned (assign_nullptr fuel m self) = none) ∧
    assign_nullptr 1 demo_pair (Loc.stack 0)
      = Res.ok none ⟨[Cell.dead, Cell.live ⟨9, none⟩], [none, some 1], 5⟩ := by
  refine ⟨?_, rfl⟩
  intro V fuel m self
  unfold assign_nullptr
  repeat' split
  all_goals rfl

/-- C8. Self-copy-assignment is a no-op: for every memory and every box `a` (empty or not,
whatever hangs from it), `a = a` leaves the whole memory as it is, allocation budget
included, so that nothing is allocated, released or copied, and returns a reference to `a`.
The one unit of fuel pays for entering the operator. -/
theorem assign_copy_self :
    ∀ (V : Type) (fuel : Nat) (m : Mem V) (a : Loc),
      assign_copy (fuel + 1) m a a = Res.ok (some a) m ∧
      Res.returned (assign_copy (fuel + 1) m a a) = some a := by
  intro V fuel m a
  have h : assign_copy (fuel + 1) m a a = Res.ok (some a) m := by
    simp [assign_copy]
  rw [h]
  exact ⟨rfl, rfl⟩

/-- C9, as stated, fails when one of the two boxes lies inside the value the other owns.
Box 0 of `demo_list` owns the list 1, 2 and the other box is the member `next` of its first
node.  After `a = a->next` the source box, which held node 1, is empty and node 1 is
released: the source has changed.  After `a->next = a` the destination holds the list 1, 1
where the source held 1, 2 before and holds 1, 1, 1 now. -/
theorem assign_copy_nested_counterexample :
    (readBox demo_list (Loc.stack 0) = some (some 0) ∧
      readBox demo_list (Loc.member 0) = some (some 1) ∧
      Chain demo_list.heap (some 0) [0, 1] ∧ values demo_list.heap [0, 1] = [some 1, some 2]) ∧
    (∃ m1 : Mem Int,
      assign_copy 4 demo_list (Loc.stack 0) (Loc.member 0) = Res.ok (some (Loc.stack 0)) m1 ∧
      m1 = ⟨[Cell.live ⟨2, none⟩, Cell.dead], [some 0, none], 5⟩ ∧
      readBox m1 (Loc.member 0) = some none ∧
      readBox m1 (Loc.member 0) ≠ readBox demo_list (Loc.member 0)) ∧
    (∃ m1 : Mem Int,
      assign_copy 4 demo_list (Loc.member 0) (Loc.stack 0) = Res.ok (some (Loc.member 0)) m1 ∧
      m1 = ⟨[Cell.live ⟨1, some 1⟩, Cell.live ⟨1, some 2⟩, Cell.live ⟨1, none⟩],
        [some 0, none], 4⟩ ∧
      readBox m1 (Loc.member 0) = some (some 1) ∧
      Chain m1.heap (some 1) [1, 2] ∧ values m1.heap [1, 2] = [some 1, some 1] ∧
      Chain m1.heap (some 0) [0, 1, 2] ∧
      values m1.heap [0, 1, 2] = [some 1, some 1, some 1]) := by
  refine ⟨⟨rfl, rfl, by decide, rfl⟩,
    ⟨⟨[Cell.live ⟨2, none⟩, Cell.dead], [some 0, none], 5⟩, rfl, rfl, rfl, by decide⟩,
    ⟨⟨[Cell.live ⟨1, some 1⟩, Cell.live ⟨1, some 2⟩, Cell.live ⟨1, none⟩], [some 0, none], 4⟩,
      rfl, rfl, rfl, by simp [Chain, nextOf], rfl, by simp [Chain, nextOf], rfl⟩⟩

/-- C9, amended.  Copy assignment `self = a` between two distinct boxes, where `ds` hangs
from `self` and `qs` from `a`, no node of `ds` is a node of `qs`, and neither box is a member
of a node hanging from the other; with fuel for both chains and allocation budget for the
source chain.  The call completes and returns `self`; afterwards `self` holds null exactly
when `a` does, and what hangs from `self` carries the payloads of `qs`; `a` holds what it
held, `qs` still hangs from it and its cells are untouched.  When `a` is empty nothing is
allocated and every node of `ds`, constructed before, is released now.  When `a` is not empty
and `self` was, `self` holds the first fresh address, which is no node of `qs`, and one
allocation is made per node of `qs`. -/
theorem assign_copy_separate {V : Type} (fuel : Nat) (m : Mem V) (self a : Loc)
    (pd pq : Option Nat) (ds qs : List Nat)
    (hne : self ≠ a) (hself : readBox m self = some pd) (ha : readBox m a = some pq)
    (hds : Chain m.heap pd ds) (hqs : Chain m.heap pq qs)
    (hsep : ∀ c ∈ ds, c ∉ qs)
    (hself_out : ∀ c ∈ qs, Loc.member c ≠ self) (ha_out : ∀ c ∈ ds, Loc.member c ≠ a)
    (hfuel : ds.length + qs.length < fuel) (hbudget : qs.length ≤ m.budget) :
    ∃ (m1 : Mem V) (pd1 : Option Nat) (ds1 : List Nat),
      assign_copy fuel m self a = Res.ok (some self) m1 ∧
      readBox m1 self = some pd1 ∧ (pd1 = none ↔ pq = none) ∧
      Chain m1.heap pd1 ds1 ∧ values m1.heap ds1 = values m.heap qs ∧
      readBox m1 a = some pq ∧ Chain m1.heap pq qs ∧
      (∀ c ∈ qs, m1.heap[c]? = m.heap[c]?) ∧
      (pq = none → m1.heap.length = m.heap.length ∧
        ∀ c ∈ ds, (∃ n : Node V, m.heap[c]? = some (Cell.live n)) ∧
          m1.heap[c]? = some Cell.dead) ∧
      (pq ≠ none → pd = none →
        pd1 = some m.heap.length ∧ m.heap.length ∉ qs ∧
        m1.heap.length = m.heap.length + qs.length) := by
  obtain ⟨m1, pd1, hrun, hread, hnull, hkeep, hfresh, hA3, _, hA5, _, hrel, halloc, _, hB2⟩ :=
    assign_copy_chain fuel m self a pd pq ds qs hself ha hds hqs hfuel hbudget
  obtain ⟨ds1, hc1, hv1⟩ := hB2 hsep hself_out
  have hqcells : ∀ c ∈ qs, m1.heap[c]? = m.heap[c]? := fun c hc =>
    hA3 c (Chain.lt hqs c hc) (fun hm => hsep c hm hc) (hself_out c hc)
  refine ⟨m1, pd1, ds1, hrun, hread, ⟨?_, hnull⟩, hc1, hv1, ?_,
    Chain.congr hqs (fun c hc => nextOf_congr (hqcells c hc)), hqcells, ?_, ?_⟩
  · intro hp1
    by_contra hpq
    cases hpd : pd with
    | none =>
      rw [hfresh hpq hpd] at hp1
      simp at hp1
    | some d =>
      have hpdn : pd ≠ none := by simp [hpd]
      rw [hkeep hpq hpdn, hpd] at hp1
      simp at hp1
  · cases a with
    | stack i =>
      show m1.stack[i]? = some pq
      rw [hA5 i (Ne.symm hne)]
      exact ha
    | member c =>
      show nextOf m1.heap c = some pq
      rw [nextOf_congr (hA3 c (nextOf_lt ha) (fun hm => ha_out c hm rfl) (Ne.symm hne))]
      exact ha
  · intro hp
    exact ⟨(hrel hp).1, fun c hc => ⟨Chain.live hds c hc, (hrel hp).2 c hc⟩⟩
  · intro hp1 hp2
    exact ⟨hfresh hp1 hp2, fun hm => Nat.lt_irrefl _ (Chain.lt hqs _ hm), halloc hp1 hp2⟩

/-- C9, amended, at a concrete input: `b1 = b0` on `demo_pair`, where box 1 owns node 1 and
box 0 owns node 0. -/
theorem assign_copy_separate_witness :
    (Loc.stack 1 ≠ Loc.stack 0 ∧ readBox demo_pair (Loc.stack 1) = some (some 1) ∧
      readBox demo_pair (Loc.stack 0) = some (some 0) ∧
      Chain demo_pair.heap (some 1) [1] ∧ Chain demo_pair.heap (some 0) [0] ∧
      (∀ c ∈ [1], c ∉ [0]) ∧ (∀ c ∈ [0], Loc.member c ≠ Loc.stack 1) ∧
      (∀ c ∈ [1], Loc.member c ≠ Loc.stack 0) ∧
      [1].length + [0].length < 3 ∧ [0].length ≤ demo_pair.budget) ∧
    ∃ (m1 : Mem Int) (pd1 : Option Nat) (ds1 : List Nat),
      assign_copy 3 demo_pair (Loc.stack 1) (Loc.stack 0) = Res.ok (some (Loc.stack 1)) m1 ∧
      readBox m1 (Loc.stack 1) = some pd1 ∧ (pd1 = none ↔ (some 0 : Option Nat) = none) ∧
      Chain m1.heap pd1 ds1 ∧ values m1.heap ds1 = values demo_pair.heap [0] ∧
      readBox m1 (Loc.stack 0) = some (some 0) ∧ Chain m1.heap (some 0) [0] ∧
      (∀ c ∈ [0], m1.heap[c]? = demo_pair.heap[c]?) ∧
      ((some 0 : Option Nat) = none → m1.heap.length = demo_pair.heap.length ∧
        ∀ c ∈ [1], (∃ n : Node Int, demo_pair.heap[c]? = some (Cell.live n)) ∧
          m1.heap[c]? = some Cell.dead) ∧
      ((some 0 : Option Nat) ≠ none → (some 1 : Option Nat) = none →
        pd1 = some demo_pair.heap.length ∧ demo_pair.heap.length ∉ [0] ∧
        m1.heap.length = demo_pair.heap.length + [0].length) :=
  ⟨⟨by decide, rfl, rfl, by decide, by decide,
      by decide, by decide, by decide, by decide, by decide⟩,
    assign_copy_separate 3 demo_pair (Loc.stack 1) (Loc.stack 0) (some 1) (some 0) [1] [0]
      (by decide) rfl rfl (by decide)
      (by decide) (by decide) (by decide) (by decide) (by decide)
      (by decide)⟩

/-- C10. Copy assignment in place.  For two distinct boxes `self` and `a` holding the nodes
`d` and `q`, with `ds` hanging from `d` and `qs` from `q` (the chains may share nodes, and
either box may be a member of a node of either chain), fuel for both chains and allocation
budget for the source chain: `self = a` completes and returns `self`; the memory it leaves
is the memory the statement `*p = *a.p` of `T` leaves, the operator itself neither
allocating nor releasing; `self` still holds `d`, a constructed node whose payload is now
the payload `q` had; and no automatic box has changed. -/
theorem assign_copy_in_place {V : Type} (fuel : Nat) (m : Mem V) (self a : Loc) (d q : Nat)
    (ds qs : List Nat)
    (hne : self ≠ a) (hself : readBox m self = some (some d))
    (ha : readBox m a = some (some q))
    (hds : Chain m.heap (some d) ds) (hqs : Chain m.heap (some q) qs)
    (hfuel : ds.length + qs.length ≤ fuel) (hbudget : qs.length ≤ m.budget) :
    ∃ m1 : Mem V, assign_copy (fuel + 1) m self a = Res.ok (some self) m1 ∧
      T_copy_assign fuel m d q = Res.ok () m1 ∧
      readBox m1 self = some (some d) ∧
      (∃ n : Node V, m1.heap[d]? = some (Cell.live n) ∧ some n.value = valueOf m.heap q) ∧
      (∀ i : Nat, m1.stack[i]? = m.stack[i]?) := by
  obtain ⟨m1, pd1, hrun, hread, _, hkeep, _, _, _, hA5, _, _, _, hval, _⟩ :=
    assign_copy_chain (fuel + 1) m self a (some d) (some q) ds qs hself ha hds hqs
      (by omega) hbudget
  have hpd1 : pd1 = some d := hkeep (by simp) (by simp)
  subst hpd1
  have hdm : d ∈ ds := by
    cases ds with
    | nil => exact absurd hds (by simp [Chain])
    | cons d0 ds1 =>
      rw [Option.some.inj hds.1]
      exact List.mem_cons_self d0 ds1
  have hqm : q ∈ qs := by
    cases qs with
    | nil => exact absurd hqs (by simp [Chain])
    | cons q0 qs1 =>
      rw [Option.some.inj hqs.1]
      exact List.mem_cons_self q0 qs1
  obtain ⟨nd, hnd⟩ := Chain.live hds d hdm
  obtain ⟨nq, hnq⟩ := Chain.live hqs q hqm
  have hrun1 := hrun
  simp only [assign_copy, hne, if_false, ha, hself, hnq, hnd] at hrun1
  have hT : T_copy_assign fuel m d q = Res.ok () m1 := by
    simp only [T_copy_assign, hnq, hnd]
    cases hin : assign_copy fuel
        { m with heap := m.heap.set d (Cell.live ⟨nq.value, nd.next⟩) }
        (Loc.member d) (Loc.member q) with
    | ok r m2 =>
      rw [hin] at hrun1
      simp only [Res.ok.injEq, true_and] at hrun1
      simp only [hrun1]
    | thrown m2 =>
      rw [hin] at hrun1
      simp at hrun1
    | ub =>
      rw [hin] at hrun1
      simp at hrun1
    | outOfFuel =>
      rw [hin] at hrun1
      simp at hrun1
  have hv := hval d q rfl rfl
  have hlive : ∃ n : Node V, m1.heap[d]? = some (Cell.live n) ∧
      some n.value = valueOf m.heap q := by
    rw [← hv]
    have hsome : valueOf m1.heap d = valueOf m.heap q := hv
    rw [valueOf_of_live hnq] at hsome
    unfold valueOf at hsome ⊢
    split at hsome
    · rename_i n hn
      exact ⟨n, hn, by simp [hn]⟩
    · simp at hsome
  refine ⟨m1, hrun, hT, hread, hlive, ?_⟩
  intro i
  cases self with
  | member c => exact hA5 i (by simp)
  | stack j =>
    by_cases hij : i = j
    · subst hij
      have h1 : m1.stack[i]? = some (some d) := hread
      have h2 : m.stack[i]? = some (some d) := hself
      rw [h1, h2]
    · exact hA5 i (by simpa using hij)

/-- C10 at a concrete input: `a = a->next` on `demo_list`, the source box being the member
`next` of the node the destination owns. -/
theorem assign_copy_in_place_witness :
    (Loc.stack 0 ≠ Loc.member 0 ∧ readBox demo_list (Loc.stack 0) = some (some 0) ∧
      readBox demo_list (Loc.member 0) = some (some 1) ∧
      Chain demo_list.heap (some 0) [0, 1] ∧ Chain demo_list.heap (some 1) [1] ∧
      [0, 1].length + [1].length ≤ 3 ∧ [1].length ≤ demo_list.budget) ∧
    ∃ m1 : Mem Int,
      assign_copy (3 + 1) demo_list (Loc.stack 0) (Loc.member 0)
        = Res.ok (some (Loc.stack 0)) m1 ∧
      T_copy_assign 3 demo_list 0 1 = Res.ok () m1 ∧
      readBox m1 (Loc.stack 0) = some (some 0) ∧
      (∃ n : Node Int, m1.heap[0]? = some (Cell.live n) ∧
        some n.value = valueOf demo_list.heap 1) ∧
      (∀ i : Nat, m1.stack[i]? = demo_list.stack[i]?) :=
  ⟨⟨by decide, rfl, rfl, by decide,
      by decide, by decide, by decide⟩,
    assign_copy_in_place 3 demo_list (Loc.stack 0) (Loc.member 0) 0 1 [0, 1] [1]
      (by decide) rfl rfl (by decide)
      (by decide) (by decide) (by decide)⟩

/-! ## New automatic boxes -/

/-- Stores into two different boxes can be done in either order. -/
theorem writeBox_comm {V : Type} {m m1 m2 : Mem V} {a b : Loc} {x y : Option Nat}
    (hab : a ≠ b) (h1 : writeBox m a y = some m1) (h2 : writeBox m1 b x = some m2) :
    ∃ n1 : Mem V, writeBox m b x = some n1 ∧ writeBox n1 a y = some m2 := by
  cases a with
  | stack i =>
    cases b with
    | stack j =>
      have hij : i ≠ j := fun e => hab (by rw [e])
      simp only [writeBox] at h1
      split at h1
      · rename_i hi
        have e1 := Option.some.inj h1
        subst e1
        simp only [writeBox, List.length_set] at h2
        split at h2
        · rename_i hj
          have e2 := Option.some.inj h2
          subst e2
          refine ⟨{ m with stack := m.stack.set j x }, by simp [writeBox, hj], ?_⟩
          simp [writeBox, hi, List.set_comm y x m.stack hij]
        · simp at h2
      · simp at h1
    | member c =>
      simp only [writeBox] at h1
      split at h1
      · rename_i hi
        have e1 := Option.some.inj h1
        subst e1
        simp only [writeBox] at h2
        split at h2
        · rename_i n hn
          have e2 := Option.some.inj h2
          subst e2
          exact ⟨{ m with heap := m.heap.set c (Cell.live { n with next := x }) },
            by simp [writeBox, hn], by simp [writeBox, hi]⟩
        · simp at h2
      · simp at h1
  | member c =>
    cases b with
    | stack j =>
      simp only [writeBox] at h1
      split at h1
      · rename_i n hn
        have e1 := Option.some.inj h1
        subst e1
        simp only [writeBox] at h2
        split at h2
        · rename_i hj
          have e2 := Option.some.inj h2
          subst e2
          exact ⟨{ m with stack := m.stack.set j x }, by simp [writeBox, hj],
            by simp [writeBox, hn]⟩
        · simp at h2
      · simp at h1
    | member d =>
      have hcd : c ≠ d := fun e => hab (by rw [e])
      simp only [writeBox] at h1
      split at h1
      · rename_i n hn
        have e1 := Option.some.inj h1
        subst e1
        simp only [writeBox] at h2
        rw [List.getElem?_set_ne hcd] at h2
        split at h2
        · rename_i n1 hn1
          have e2 := Option.some.inj h2
          subst e2
          refine ⟨{ m with heap := m.heap.set d (Cell.live { n1 with next := x }) },
            by simp [writeBox, hn1], ?_⟩
          simp only [writeBox]
          rw [List.getElem?_set_ne (Ne.symm hcd), hn]
          simp only [Option.some.injEq, Mem.mk.injEq, and_true]
          exact (List.set_comm _ _ m.heap hcd).symm
        · simp at h2
      · simp at h1

/-- C14. Swap.  For every two boxes `a` holding `x` and `b` holding `y`, the same box
included, `a.swap (b)` completes; afterwards `a` holds `y` and `b` holds `x`; the free store
has the same size, the same released cells and the same payloads, the allocation budget is
untouched and every other box holds what it held; the free function `swap (a, b)` leaves
the very same memory, and so does `swap (b, a)`. -/
theorem swap_spec {V : Type} (m : Mem V) (a b : Loc) (x y : Option Nat)
    (ha : readBox m a = some x) (hb : readBox m b = some y) :
    ∃ m1 : Mem V, value_ptr.swap m a b = Res.ok () m1 ∧
      readBox m1 a = some y ∧ readBox m1 b = some x ∧
      m1.heap.length = m.heap.length ∧ m1.budget = m.budget ∧
      (∀ c : Nat, m1.heap[c]? = some Cell.dead ↔ m.heap[c]? = some Cell.dead) ∧
      (∀ c : Nat, valueOf m1.heap c = valueOf m.heap c) ∧
      (∀ l : Loc, l ≠ a → l ≠ b → readBox m1 l = readBox m l) ∧
      value_ptr_ns.swap m a b = Res.ok () m1 ∧
      value_ptr_ns.swap m b a = Res.ok () m1 := by
  obtain ⟨m1, hw1⟩ := writeBox_of_readBox ha y
  have hb1 : ∃ z, readBox m1 b = some z := by
    by_cases hba : b = a
    · exact ⟨y, by rw [hba]; exact readBox_writeBox_self hw1⟩
    · exact ⟨y, by rw [readBox_writeBox_of_ne hw1 b hba]; exact hb⟩
  obtain ⟨z, hz⟩ := hb1
  obtain ⟨m2, hw2⟩ := writeBox_of_readBox hz x
  have hrun : value_ptr.swap m a b = Res.ok () m2 := by
    simp only [value_ptr.swap, ha, hb, hw1, hw2]
  have hsym : value_ptr.swap m b a = Res.ok () m2 := by
    by_cases hab : a = b
    · subst hab
      have hxy : x = y := by
        rw [ha] at hb
        exact Option.some.inj hb
      subst hxy
      exact hrun
    · obtain ⟨n1, hn1, hn2⟩ := writeBox_comm hab hw1 hw2
      simp only [value_ptr.swap, ha, hb, hn1, hn2]
  refine ⟨m2, hrun, ?_, readBox_writeBox_self hw2, ?_, ?_, ?_, ?_, ?_, hrun, hsym⟩
  · by_cases hab : a = b
    · subst hab
      have hxy : x = y := by
        rw [ha] at hb
        exact Option.some.inj hb
      subst hxy
      exact readBox_writeBox_self hw2
    · rw [readBox_writeBox_of_ne hw2 a hab]
      exact readBox_writeBox_self hw1
  · rw [length_writeBox hw2, length_writeBox hw1]
  · rw [budget_writeBox hw2, budget_writeBox hw1]
  · intro c
    rw [dead_writeBox hw2 c, dead_writeBox hw1 c]
  · intro c
    rw [valueOf_writeBox hw2 c, valueOf_writeBox hw1 c]
  · intro l hla hlb
    rw [readBox_writeBox_of_ne hw2 l hlb, readBox_writeBox_of_ne hw1 l hla]

/-- C14 at a concrete input: swapping the two boxes of `demo_pair`. -/
theorem swap_spec_witness :
    (readBox demo_pair (Loc.stack 0) = some (some 0) ∧
      readBox demo_pair (Loc.stack 1) = some (some 1)) ∧
    ∃ m1 : Mem Int, value_ptr.swap demo_pair (Loc.stack 0) (Loc.stack 1) = Res.ok () m1 ∧
      readBox m1 (Loc.stack 0) = some (some 1) ∧ readBox m1 (Loc.stack 1) = some (some 0) ∧
      m1.heap.length = demo_pair.heap.length ∧ m1.budget = demo_pair.budget ∧
      (∀ c : Nat, m1.heap[c]? = some Cell.dead ↔ demo_pair.heap[c]? = some Cell.dead) ∧
      (∀ c : Nat, valueOf m1.heap c = valueOf demo_pair.heap c) ∧
      (∀ l : Loc, l ≠ Loc.stack 0 → l ≠ Loc.stack 1 →
        readBox m1 l = readBox demo_pair l) ∧
      value_ptr_ns.swap demo_pair (Loc.stack 0) (Loc.stack 1) = Res.ok () m1 ∧
      value_ptr_ns.swap demo_pair (Loc.stack 1) (Loc.stack 0) = Res.ok () m1 :=
  ⟨⟨rfl, rfl⟩, swap_spec demo_pair (Loc.stack 0) (Loc.stack 1) (some 0) (some 1) rfl rfl⟩

/-! ## Allocation failure -/

/-- Running `new T (*q)` on a chain with too little allocation budget throws, given fuel for
the chain.  No cell that existed before is touched, every cell allocated on the way is
released, and exactly the budget is used up. -/
theorem new_copy_short {V : Type} :
    ∀ (as : List Nat) (q : Nat) (m : Mem V) (fuel : Nat),
      Chain m.heap (some q) (q :: as) → as.length + 1 ≤ fuel → m.budget < as.length + 1 →
      ∃ m1 : Mem V, new_copy fuel m q = Res.thrown m1 ∧
        (∀ c : Nat, c < m.heap.length → m1.heap[c]? = m.heap[c]?) ∧
        (∀ c : Nat, m.heap.length ≤ c → c < m1.heap.length → m1.heap[c]? = some Cell.dead) ∧
        m1.stack = m.stack ∧ m1.heap.length = m.heap.length + m.budget ∧ m1.budget = 0
  | _, _, _, 0, _, hf, _ => by simp at hf
  | as, q, m, f + 1, hc, hf, hb => by
    by_cases hb0 : m.budget = 0
    · exact ⟨m, by simp [new_copy, hb0], fun _ _ => rfl,
        fun c h1 h2 => absurd h2 (by omega), rfl, by omega, hb0⟩
    · cases as with
      | nil =>
        simp at hb
        exact absurd hb hb0
      | cons a as1 =>
        obtain ⟨_, nx, hnx, hrest⟩ := hc
        have hnx1 : nx = some a := hrest.1
        subst hnx1
        obtain ⟨n, hn, hnn⟩ := nextOf_live hnx
        have hq : q < m.heap.length := nextOf_lt hnx
        have hn1 : (m.heap ++ [Cell.raw])[q]? = some (Cell.live n) := by
          rw [List.getElem?_append_left hq]; exact hn
        have hrest1 : Chain (m.heap ++ [Cell.raw]) (some a) (a :: as1) :=
          Chain.congr hrest (fun c hc => nextOf_append m.heap _ (Chain.lt hrest c hc))
        obtain ⟨m2, hrun, hold, hnew, hstack, hlen, hbud⟩ :=
          new_copy_short as1 a
            { m with heap := m.heap ++ [Cell.raw], budget := m.budget - 1 } f hrest1
            (by simpa using hf)
            (by show m.budget - 1 < as1.length + 1
                simp at hb
                omega)
        dsimp only at hrun hold hnew hstack hlen hbud
        simp only [List.length_append, List.length_singleton] at hold hnew hlen
        have hk : m.heap.length < m2.heap.length := by omega
        refine ⟨{ m2 with heap := m2.heap.set m.heap.length Cell.dead }, ?_, ?_, ?_, hstack,
          ?_, hbud⟩
        · simp only [new_copy, hb0, if_false, hn1, hnn, hrun]
        · intro c hc
          show (m2.heap.set m.heap.length Cell.dead)[c]? = m.heap[c]?
          rw [List.getElem?_set_ne (by omega), hold c (by omega)]
          exact List.getElem?_append_left hc
        · intro c h1 h2
          show (m2.heap.set m.heap.length Cell.dead)[c]? = some Cell.dead
          rw [List.length_set] at h2
          by_cases hck : m.heap.length = c
          · subst hck
            exact List.getElem?_set_self hk
          · rw [List.getElem?_set_ne hck]
            exact hnew c (by omega) h2
        · show (m2.heap.set m.heap.length Cell.dead).length = _
          rw [List.length_set, hlen]
          omega

/-- Boxes that existed keep what they held when no cell that existed and no automatic box
has changed. -/
theorem readBox_of_frame {V : Type} {m m1 : Mem V}
    (hold : ∀ c : Nat, c < m.heap.length → m1.heap[c]? = m.heap[c]?)
    (hstack : m1.stack = m.stack) (l : Loc) (y : Option Nat) (hl : readBox m l = some y) :
    readBox m1 l = some y := by
  cases l with
  | stack i =>
    show m1.stack[i]? = some y
    rw [hstack]
    exact hl
  | member c =>
    show nextOf m1.heap c = some y
    rw [nextOf_congr (hold c (nextOf_lt hl))]
    exact hl

/-- C11. Copy assignment into an empty box when an allocation fails.  For an empty box
`self` and a box `a` holding `q` with the nodes `qs` hanging from it, fuel for the chain and
an allocation budget smaller than the number of nodes to copy: `self = a` ends in the
exception; `self` is still empty; `a` holds `q` and `qs` still hangs from it; no cell that
existed before has changed and every box that existed holds what it held; and every cell
allocated by the call is released. -/
theorem assign_copy_empty_failure {V : Type} (fuel : Nat) (m : Mem V) (self a : Loc)
    (q : Nat) (qs : List Nat)
    (hself : readBox m self = some none) (ha : readBox m a = some (some q))
    (hqs : Chain m.heap (some q) qs)
    (hfuel : qs.length < fuel) (hshort : m.budget < qs.length) :
    ∃ m1 : Mem V, assign_copy fuel m self a = Res.thrown m1 ∧
      readBox m1 self = some none ∧
      readBox m1 a = some (some q) ∧ Chain m1.heap (some q) qs ∧
      (∀ c : Nat, c < m.heap.length → m1.heap[c]? = m.heap[c]?) ∧
      (∀ (l : Loc) (y : Option Nat), readBox m l = some y → readBox m1 l = some y) ∧
      (∀ c : Nat, m.heap.length ≤ c → c < m1.heap.length →
        m1.heap[c]? = some Cell.dead) := by
  have hne : self ≠ a := by
    intro e
    rw [e, ha] at hself
    simp at hself
  cases fuel with
  | zero => simp at hfuel
  | succ f =>
    cases qs with
    | nil => exact absurd hqs (by simp [Chain])
    | cons q0 qs1 =>
      have hq0 : q = q0 := Option.some.inj hqs.1
      subst hq0
      obtain ⟨m1, hrun, hold, hnew, hstack, _, _⟩ :=
        new_copy_short qs1 q m f hqs (by simpa using hfuel) (by simpa using hshort)
      refine ⟨m1, by simp only [assign_copy, hne, if_false, ha, hself, hrun],
        readBox_of_frame hold hstack self none hself,
        readBox_of_frame hold hstack a (some q) ha,
        Chain.congr hqs (fun c hc => nextOf_congr (hold c (Chain.lt hqs c hc))),
        hold, readBox_of_frame hold hstack, hnew⟩

/-- C11 at a concrete input: `b1 = b0` on `demo_short`, where box 1 is empty, box 0 owns the
list 1, 2 and only one more allocation succeeds. -/
theorem assign_copy_empty_failure_witness :
    (readBox demo_short (Loc.stack 1) = some none ∧
      readBox demo_short (Loc.stack 0) = some (some 0) ∧
      Chain demo_short.heap (some 0) [0, 1] ∧
      [0, 1].length < 3 ∧ demo_short.budget < [0, 1].length) ∧
    ∃ m1 : Mem Int, assign_copy 3 demo_short (Loc.stack 1) (Loc.stack 0) = Res.thrown m1 ∧
      readBox m1 (Loc.stack 1) = some none ∧
      readBox m1 (Loc.stack 0) = some (some 0) ∧ Chain m1.heap (some 0) [0, 1] ∧
      (∀ c : Nat, c < demo_short.heap.length → m1.heap[c]? = demo_short.heap[c]?) ∧
      (∀ (l : Loc) (y : Option Nat), readBox demo_short l = some y →
        readBox m1 l = some y) ∧
      (∀ c : Nat, demo_short.heap.length ≤ c → c < m1.heap.length →
        m1.heap[c]? = some Cell.dead) :=
  ⟨⟨rfl, rfl, by decide, by decide, by decide⟩,
    assign_copy_empty_failure 3 demo_short (Loc.stack 1) (Loc.stack 0) 0 [0, 1] rfl rfl
      (by decide) (by decide) (by decide)⟩

/-- C13. `make_value` on success.  When `operator new` succeeds and the constructor of `T`
selected by the arguments yields the node `n`, leaving the memory `m2` in which the fresh
storage is still there: `make_value` completes and returns a new box; the box holds the
first fresh address, at which no cell was before; dereferencing the box yields that
address, and the node constructed there is exactly `n`; every other cell, the allocation
budget and every box outside the new node are as the constructor left them. -/
theorem make_value_spec {V : Type} (construct : Mem V → Res V (Node V)) (m m2 : Mem V)
    (n : Node V) (hbudget : m.budget ≠ 0)
    (hctor : construct { m with heap := m.heap ++ [Cell.raw], budget := m.budget - 1 }
      = Res.ok n m2)
    (hkeep : m.heap.length < m2.heap.length) :
    ∃ (b : Loc) (m3 : Mem V), make_value construct m = Res.ok b m3 ∧
      readBox m2 b = none ∧ readBox m3 b = some (some m.heap.length) ∧
      m.heap[m.heap.length]? = none ∧
      value_ptr.deref_lvalue m3 b = Res.ok m.heap.length m3 ∧
      m3.heap[m.heap.length]? = some (Cell.live n) ∧
      m3.heap.length = m2.heap.length ∧ m3.budget = m2.budget ∧
      (∀ c : Nat, c ≠ m.heap.length → m3.heap[c]? = m2.heap[c]?) ∧
      (∀ (l : Loc) (y : Option Nat), l ≠ Loc.member m.heap.length →
        readBox m2 l = some y → readBox m3 l = some y) := by
  have hrun : make_value construct m
      = Res.ok (Loc.stack m2.stack.length)
          { m2 with heap := m2.heap.set m.heap.length (Cell.live n),
                    stack := m2.stack ++ [some m.heap.length] } := by
    simp [make_value, new_T, hbudget, hctor, value_ptr.ctor_raw]
  have hb : readBox
      ({ m2 with heap := m2.heap.set m.heap.length (Cell.live n),
                 stack := m2.stack ++ [some m.heap.length] } : Mem V)
      (Loc.stack m2.stack.length) = some (some m.heap.length) := by
    simp [readBox]
  refine ⟨_, _, hrun, by simp [readBox], hb, List.getElem?_eq_none (Nat.le_refl _), ?_,
    List.getElem?_set_self hkeep, by simp, rfl, ?_, ?_⟩
  · simp only [value_ptr.deref_lvalue, hb]
  · intro c hc
    exact List.getElem?_set_ne (Ne.symm hc)
  · intro l y hl hy
    cases l with
    | stack i =>
      simp only [readBox] at hy ⊢
      obtain ⟨hlt, _⟩ := List.getElem?_eq_some.mp hy
      rw [List.getElem?_append_left hlt]
      exact hy
    | member c =>
      have hc : m.heap.length ≠ c := fun e => hl (by rw [e])
      show nextOf (m2.heap.set m.heap.length (Cell.live n)) c = some y
      rw [nextOf_set_ne _ _ hc]
      exact hy

/-- C13 at a concrete input: `make_value` on `demo_pair` with the constructor of `T` that
stores the payload 4. -/
theorem make_value_spec_witness :
    (demo_pair.budget ≠ 0 ∧
      T_of_value 4
        { demo_pair with heap := demo_pair.heap ++ [Cell.raw],
                         budget := demo_pair.budget - 1 }
        = Res.ok ⟨4, none⟩
            ⟨[Cell.live ⟨7, none⟩, Cell.live ⟨9, none⟩, Cell.raw], [some 0, some 1], 4⟩ ∧
      demo_pair.heap.length
        < (⟨[Cell.live ⟨7, none⟩, Cell.live ⟨9, none⟩, Cell.raw], [some 0, some 1], 4⟩ :
            Mem Int).heap.length) ∧
    ∃ (b : Loc) (m3 : Mem Int), make_value (T_of_value 4) demo_pair = Res.ok b m3 ∧
      readBox (⟨[Cell.live ⟨7, none⟩, Cell.live ⟨9, none⟩, Cell.raw], [some 0, some 1], 4⟩ :
        Mem Int) b = none ∧
      readBox m3 b = some (some demo_pair.heap.length) ∧
      demo_pair.heap[demo_pair.heap.length]? = none ∧
      value_ptr.deref_lvalue m3 b = Res.ok demo_pair.heap.length m3 ∧
      m3.heap[demo_pair.heap.length]? = some (Cell.live ⟨4, none⟩) ∧
      m3.heap.length
        = (⟨[Cell.live ⟨7, none⟩, Cell.live ⟨9, none⟩, Cell.raw], [some 0, some 1], 4⟩ :
            Mem Int).heap.length ∧
      m3.budget
        = (⟨[Cell.live ⟨7, none⟩, Cell.live ⟨9, none⟩, Cell.raw], [some 0, some 1], 4⟩ :
            Mem Int).budget ∧
      (∀ c : Nat, c ≠ demo_pair.heap.length →
        m3.heap[c]?
          = (⟨[Cell.live ⟨7, none⟩, Cell.live ⟨9, none⟩, Cell.raw], [some 0, some 1], 4⟩ :
              Mem Int).heap[c]?) ∧
      (∀ (l : Loc) (y : Option Nat), l ≠ Loc.member demo_pair.heap.length →
        readBox (⟨[Cell.live ⟨7, none⟩, Cell.live ⟨9, none⟩, Cell.raw],
          [some 0, some 1], 4⟩ : Mem Int) l = some y → readBox m3 l = some y) :=
  ⟨⟨by decide, rfl, by decide⟩,
    make_value_spec (T_of_value 4) demo_pair
      ⟨[Cell.live ⟨7, none⟩, Cell.live ⟨9, none⟩, Cell.raw], [some 0, some 1], 4⟩ ⟨4, none⟩
      (by decide) rfl (by decide)⟩

/-- C17. The copy-constructibility trait does not mirror `T`: for a `T` that is not copy
constructible, such as `std::unique_ptr<int>`, `value_ptr<T>` is still reported as copy
constructible, and the answer for a copy constructible `T` is the same. -/
theorem is_copy_constructible_not_mirrored :
    is_copy_constructible_value_ptr false = true ∧
    is_copy_constructible_value_ptr false ≠ false ∧
    is_copy_constructible_value_ptr true = is_copy_constructible_value_ptr false := by
  decide

/-! ## Recursive structures -/

/-- Copy assignment to a box from the member `next` of the node the box owns: the payloads
move up by one node along the list and the last node is released.  `l` holds `d`, the list
`d :: ds` hangs from it, and the source is the member of `d`. -/
theorem assign_copy_shift {V : Type} :
    ∀ (ds : List Nat) (d : Nat) (m : Mem V) (l : Loc) (fuel : Nat),
      readBox m l = some (some d) → Chain m.heap (some d) (d :: ds) → ds.length + 1 < fuel →
      ∃ (m1 : Mem V) (p1 : Option Nat),
        assign_copy fuel m l (Loc.member d) = Res.ok (some l) m1 ∧
        readBox m1 l = some p1 ∧
        Chain m1.heap p1 (d :: ds).dropLast ∧
        values m1.heap (d :: ds).dropLast = values m.heap ds ∧
        (∀ c ∈ d :: ds, c ∉ (d :: ds).dropLast → m1.heap[c]? = some Cell.dead) ∧
        m1.heap.length = m.heap.length ∧ m1.budget = m.budget ∧
        (∀ c : Nat, c ∉ d :: ds → Loc.member c ≠ l → m1.heap[c]? = m.heap[c]?) ∧
        (∀ c : Nat, c ∉ d :: ds → valueOf m1.heap c = valueOf m.heap c) ∧
        (∀ i : Nat, Loc.stack i ≠ l → m1.stack[i]? = m.stack[i]?)
  | _, _, _, _, 0, _, _, hf => by simp at hf
  | [], d, m, l, f + 1, hl, hc, hf => by
    have hnot := Chain.box_not_mem hl hc
    have hne : l ≠ Loc.member d := fun e => hnot d (List.mem_cons_self d []) e.symm
    have hsrc : readBox m (Loc.member d) = some none := by
      obtain ⟨_, nx, hnx, hrest⟩ := hc
      have hn : nx = none := hrest
      subst hn
      exact hnx
    have hd := delete_ptr_chain m [d] (some d) f hc (by simp at hf ⊢; omega)
    have hb1 : readBox { m with heap := release m.heap [d] } l = some (some d) := by
      rw [readBox_release m l [d] hnot]; exact hl
    obtain ⟨m2, hw⟩ := writeBox_of_readBox hb1 none
    have hbud := budget_writeBox hw
    refine ⟨m2, none, by simp only [assign_copy, hne, if_false, hsrc, hl, hd, hw],
      readBox_writeBox_self hw, rfl, rfl, ?_, ?_, hbud, ?_, ?_, ?_⟩
    · intro c hc1 _
      rw [dead_writeBox hw c]
      exact getElem?_release_of_mem m.heap [d] c hc1 (Chain.lt hc c hc1)
    · rw [length_writeBox hw]
      exact length_release m.heap [d]
    · intro c hc1 hne1
      rw [heap_writeBox_of_ne hw c hne1]
      exact getElem?_release_of_not_mem m.heap [d] c hc1
    · intro c hc1
      rw [valueOf_writeBox hw c]
      exact valueOf_congr (getElem?_release_of_not_mem m.heap [d] c hc1)
    · intro i hi
      exact stack_writeBox_of_ne hw i hi
  | d1 :: ds1, d, m, l, f + 1, hl, hc, hf => by
    have hnot := Chain.box_not_mem hl hc
    have hne : l ≠ Loc.member d := fun e => hnot d (List.mem_cons_self d _) e.symm
    have hdtail : d ∉ d1 :: ds1 := Chain.not_mem_tail hc
    obtain ⟨_, nx, hnx, hrest⟩ := hc
    have hnx1 : nx = some d1 := hrest.1
    subst hnx1
    have hsrc : readBox m (Loc.member d) = some (some d1) := hnx
    obtain ⟨nd, hnd, hndn⟩ := nextOf_live hnx
    obtain ⟨_, ny, hny, hrest1⟩ := hrest
    obtain ⟨nq, hnq, _⟩ := nextOf_live hny
    have hrestc : Chain m.heap (some d1) (d1 :: ds1) := ⟨rfl, ny, hny, hrest1⟩
    have hdlt : d < m.heap.length := nextOf_lt hnx
    have hnext : ∀ c : Nat,
        nextOf (m.heap.set d (Cell.live ⟨nq.value, nd.next⟩)) c = nextOf m.heap c :=
      nextOf_set_value hnd nq.value
    obtain ⟨m2, p1, hrun, hread, hchain, hvals, hdead, hlen, hbud, hfr, hfv, hfs⟩ :=
      assign_copy_shift ds1 d1
        { m with heap := m.heap.set d (Cell.live ⟨nq.value, nd.next⟩) } (Loc.member d) f
        (by show nextOf _ d = some (some d1)
            rw [hnext]; exact hnx)
        (Chain.congr hrestc (fun c _ => hnext c))
        (by simp at hf ⊢; omega)
    dsimp only at hrun hvals hlen hbud hfr hfv hfs
    rw [List.length_set] at hlen
    have hselfd : readBox m2 l = some (some d) := by
      cases l with
      | stack i =>
        show m2.stack[i]? = some (some d)
        rw [hfs i (by simp)]
        exact hl
      | member c =>
        have hcd : c ∉ d :: d1 :: ds1 := fun hm => hnot c hm rfl
        have hc1 : c ≠ d := fun e => hcd (e ▸ List.mem_cons_self d _)
        have hc2 : c ∉ d1 :: ds1 := fun hm => hcd (List.mem_cons_of_mem d hm)
        show nextOf m2.heap c = some (some d)
        rw [nextOf_congr (hfr c hc2 (by simpa using hc1)), nextOf_set_ne _ _ (Ne.symm hc1)]
        exact hl
    have hval : valueOf m2.heap d = valueOf m.heap d1 := by
      rw [hfv d hdtail, valueOf_of_live hnq]
      simp [valueOf, hdlt]
    have htail : values m2.heap (d1 :: ds1).dropLast = values m.heap ds1 := by
      rw [hvals]
      refine values_congr (fun c hc => List.getElem?_set_ne ?_)
      intro e
      exact hdtail (e ▸ List.mem_cons_of_mem d1 hc)
    have hdrop : (d :: d1 :: ds1).dropLast = d :: (d1 :: ds1).dropLast := rfl
    refine ⟨m2, some d,
      by simp only [assign_copy, hne, if_false, hsrc, hl, hnq, hnd, hrun],
      hselfd, ?_, ?_, ?_, hlen, hbud, ?_, ?_, ?_⟩
    · rw [hdrop]
      exact ⟨rfl, p1, hread, hchain⟩
    · rw [hdrop]
      show valueOf m2.heap d :: values m2.heap (d1 :: ds1).dropLast
        = valueOf m.heap d1 :: values m.heap ds1
      rw [hval, htail]
    · intro c hc1 hc2
      rw [hdrop] at hc2
      have hcd : c ≠ d := fun e => hc2 (e ▸ List.mem_cons_self d _)
      have hc3 : c ∈ d1 :: ds1 := by
        rcases List.mem_cons.mp hc1 with e | hm
        · exact absurd e hcd
        · exact hm
      exact hdead c hc3 (fun hm => hc2 (List.mem_cons_of_mem d hm))
    · intro c hc1 hne1
      have hcd : c ≠ d := fun e => hc1 (e ▸ List.mem_cons_self d _)
      have hc2 : c ∉ d1 :: ds1 := fun hm => hc1 (List.mem_cons_of_mem d hm)
      rw [hfr c hc2 (by simpa using hcd)]
      exact List.getElem?_set_ne (Ne.symm hcd)
    · intro c hc1
      have hcd : c ≠ d := fun e => hc1 (e ▸ List.mem_cons_self d _)
      have hc2 : c ∉ d1 :: ds1 := fun hm => hc1 (List.mem_cons_of_mem d hm)
      rw [hfv c hc2]
      exact valueOf_set_ne _ _ (Ne.symm hcd)
    · intro i _
      exact hfs i (by simp)

/-- C20. Copy assignment from the box nested in the destination's own value.  For every box
`a` holding `d`, with the non-empty list `d :: ds` hanging from it, and fuel for the list:
`a = a->next` completes and returns `a`; afterwards the list hanging from `a` carries
exactly the payloads of `ds`, the list that hung from `a->next`; nothing has been allocated.  Then
destroying `a` completes, and after it every node of `d :: ds` is released while every other
cell that does not hold `a` is as it was at the start. -/
theorem assign_copy_from_own_next {V : Type} (fuel : Nat) (m : Mem V) (a : Loc) (d : Nat)
    (ds : List Nat)
    (hbox : readBox m a = some (some d)) (hown : Chain m.heap (some d) (d :: ds))
    (hfuel : ds.length + 1 < fuel) :
    ∃ (m1 : Mem V) (p1 : Option Nat) (ds1 : List Nat),
      assign_copy fuel m a (Loc.member d) = Res.ok (some a) m1 ∧
      (∃ nx : Option Nat, readBox m (Loc.member d) = some nx ∧ Chain m.heap nx ds) ∧
      readBox m1 a = some p1 ∧ Chain m1.heap p1 ds1 ∧
      values m1.heap ds1 = values m.heap ds ∧
      m1.heap.length = m.heap.length ∧ m1.budget = m.budget ∧
      ∃ m2 : Mem V, value_ptr.dtor fuel m1 a = Res.ok () m2 ∧
        (∀ c ∈ d :: ds, (∃ n : Node V, m.heap[c]? = some (Cell.live n)) ∧
          m2.heap[c]? = some Cell.dead) ∧
        m2.heap.length = m.heap.length ∧
        (∀ c : Nat, c ∉ d :: ds → Loc.member c ≠ a → m2.heap[c]? = m.heap[c]?) := by
  obtain ⟨m1, p1, hrun, hread, hchain, hvals, hdead, hlen, hbud, hfr, _, _⟩ :=
    assign_copy_shift ds d m a fuel hbox hown hfuel
  have hsub : ∀ c ∈ (d :: ds).dropLast, c ∈ d :: ds := fun c hc =>
    (List.dropLast_subset (d :: ds)) hc
  have hdl : (d :: ds).dropLast.length ≤ fuel := by
    simp
    omega
  have hd := delete_ptr_chain m1 (d :: ds).dropLast p1 fuel hchain hdl
  have hsrc : ∃ nx : Option Nat, readBox m (Loc.member d) = some nx ∧ Chain m.heap nx ds :=
    hown.2
  refine ⟨m1, p1, (d :: ds).dropLast, hrun, hsrc, hread, hchain, hvals, hlen, hbud,
    { m1 with heap := release m1.heap (d :: ds).dropLast },
    by simp only [value_ptr.dtor, hread, hd], ?_, ?_, ?_⟩
  · intro c hc
    refine ⟨Chain.live hown c hc, ?_⟩
    by_cases hcd : c ∈ (d :: ds).dropLast
    · exact getElem?_release_of_mem m1.heap _ c hcd
        (by rw [hlen]; exact Chain.lt hown c hc)
    · show (release m1.heap (d :: ds).dropLast)[c]? = some Cell.dead
      rw [getElem?_release_of_not_mem m1.heap _ c hcd]
      exact hdead c hc hcd
  · show (release m1.heap (d :: ds).dropLast).length = m.heap.length
    rw [length_release, hlen]
  · intro c hc hne
    show (release m1.heap (d :: ds).dropLast)[c]? = m.heap[c]?
    rw [getElem?_release_of_not_mem m1.heap _ c (fun hm => hc (hsub c hm))]
    exact hfr c hc hne

/-- C20 at a concrete input: `a = a->next` where box 0 of `demo_list` owns the list 1, 2. -/
theorem assign_copy_from_own_next_witness :
    (readBox demo_list (Loc.stack 0) = some (some 0) ∧
      Chain demo_list.heap (some 0) (0 :: [1]) ∧ [1].length + 1 < 3) ∧
    ∃ (m1 : Mem Int) (p1 : Option Nat) (ds1 : List Nat),
      assign_copy 3 demo_list (Loc.stack 0) (Loc.member 0) = Res.ok (some (Loc.stack 0)) m1 ∧
      (∃ nx : Option Nat, readBox demo_list (Loc.member 0) = some nx ∧
        Chain demo_list.heap nx [1]) ∧
      readBox m1 (Loc.stack 0) = some p1 ∧ Chain m1.heap p1 ds1 ∧
      values m1.heap ds1 = values demo_list.heap [1] ∧
      m1.heap.length = demo_list.heap.length ∧ m1.budget = demo_list.budget ∧
      ∃ m2 : Mem Int, value_ptr.dtor 3 m1 (Loc.stack 0) = Res.ok () m2 ∧
        (∀ c ∈ 0 :: [1], (∃ n : Node Int, demo_list.heap[c]? = some (Cell.live n)) ∧
          m2.heap[c]? = some Cell.dead) ∧
        m2.heap.length = demo_list.heap.length ∧
        (∀ c : Nat, c ∉ 0 :: [1] → Loc.member c ≠ Loc.stack 0 →
          m2.heap[c]? = demo_list.heap[c]?) :=
  ⟨⟨rfl, by decide, by decide⟩,
    assign_copy_from_own_next 3 demo_list (Loc.stack 0) 0 [1] rfl (by decide) (by decide)⟩

/-! ## The forest of automatic boxes -/

/-- The chain hanging from a pointer to a node starts with that node. -/
theorem Chain.mem_head {V : Type} {h : List (Cell V)} {k : Nat} {as : List Nat}
    (hc : Chain h (some k) as) : k ∈ as := by
  cases as with
  | nil => exact absurd hc (by simp [Chain])
  | cons a as1 =>
    rw [Option.some.inj hc.1]
    exact List.mem_cons_self a as1

/-- In a forest no node is held by two automatic boxes. -/
theorem Forest.inj {V : Type} {m : Mem V} (hf : Forest m) {i j k : Nat}
    (hi : m.stack[i]? = some (some k)) (hj : m.stack[j]? = some (some k)) : i = j := by
  by_contra hne
  obtain ⟨as, has⟩ := hf.chain i (some k) hi
  obtain ⟨bs, hbs⟩ := hf.chain j (some k) hj
  exact hf.disjoint i j _ _ as bs hne hi hj has hbs k (Chain.mem_head has) (Chain.mem_head hbs)

/-- What three statements do in `demo_forest`: `b1 = std::move (b0)` releases node 2 and
leaves the list with box 1, `b0.swap (b1)` exchanges the two pointers, and `b1 = b0`
overwrites node 2 with the value 1 and a copy of the tail in the new node 3. -/
theorem step_demo_forest :
    step demo_forest (Op.assign_move 1 0) =
      Res.ok () ⟨[Cell.live ⟨1, some 1⟩, Cell.live ⟨2, none⟩, Cell.dead], [none, some 0], 5⟩ ∧
    step demo_forest (Op.swap 0 1) =
      Res.ok () ⟨[Cell.live ⟨1, some 1⟩, Cell.live ⟨2, none⟩, Cell.live ⟨7, none⟩],
        [some 2, some 0], 5⟩ ∧
    step demo_forest (Op.assign_copy 1 0) =
      Res.ok () ⟨[Cell.live ⟨1, some 1⟩, Cell.live ⟨2, none⟩, Cell.live ⟨1, some 3⟩,
        Cell.live ⟨2, none⟩], [some 0, some 2], 4⟩ :=
  ⟨rfl, rfl, rfl⟩

/-! ## The claims on sequences of operations -/

end value_ptr_ns
